import Mathlib

/-! Access list entries of caddy-authorize (`access_list.go`)

A shallow embedding of `AccessListEntry`, its mutators, `Validate` and the
three-state evaluator `IsClaimAllowed`, followed by the properties proved
about them.

Go strings are embedded as Lean `String`s.  A Go `error` result is an
`Option ACLError` (`none` is `nil`).  A run-time panic of `IsClaimAllowed` (a
failed type assertion on a metadata value) is the result `none`.

The two slice fields are embedded twice.  `Validate` and `IsClaimAllowed` only
read them (`len`, `range`), so they work on the contents of the fields, a
`List String` each, in the structure `AccessListEntry`.  The mutators write
them (`append`, assignment of a slice of the caller), which depends on the
backing arrays: they are embedded on slice headers in a memory, in the
structure `Entry` and the namespace of the same name, and `MemState.view`
gives the contents of the fields.  The mutators of the namespace
`AccessListEntry` are their effect on the contents when no backing array is
shared (`MemCall_run_contents`).
-/

namespace ACL

/-! ## Data model -/

/-- The errors declared in the `const` block of `access_list.go`; the three
formatted errors carry the argument given to `WithArgs`. -/
inductive ACLError where
  | ErrEmptyACLAction
  | ErrEmptyACLClaim
  | ErrEmptyMethod
  | ErrEmptyPath
  | ErrEmptyClaim
  | ErrEmptyValue
  | ErrNoValues
  | ErrUnsupportedACLAction (arg : String)
  | ErrUnsupportedClaim (arg : String)
  | ErrUnsupportedMethod (arg : String)
  deriving DecidableEq, Repr

/-- The struct `AccessListEntry`. -/
structure AccessListEntry where
  Action : String
  Values : List String
  Claim : String
  Methods : List String
  Path : String
  deriving DecidableEq, Repr

/-- The part of `UserClaims` that `IsClaimAllowed` reads: the `Roles` slice.
The record itself is a non-nil pointer. -/
structure UserClaims where
  Roles : List String
  deriving DecidableEq, Repr

/-- A value of Go type `interface{}` as stored in the metadata bag: either a
string, or a value of some other dynamic type (on which the assertion
`.(string)` panics). -/
inductive MetaValue where
  | str (s : String)
  | int (n : Int)
  | bool (b : Bool)
  | null
  deriving DecidableEq, Repr

/-- The part of `TokenValidatorOptions` that `IsClaimAllowed` reads.  `Metadata`
has Go type `map[string]interface{}`; `none` is the nil map, and a non-nil map
is an association list read with `List.lookup`. -/
structure TokenValidatorOptions where
  ValidateMethodPath : Bool
  Metadata : Option (List (String × MetaValue))
  deriving DecidableEq, Repr

/-- The pair of booleans returned by `IsClaimAllowed`. -/
abbrev Verdict := Bool × Bool

/-- The verdict `(true, false)`: the rule grants the request. -/
def Verdict.Permit : Verdict := (true, false)

/-- The verdict `(false, true)`: the rule denies the request. -/
def Verdict.Deny : Verdict := (false, true)

/-- The verdict `(false, false)`: the rule is silent on the request. -/
def Verdict.Abstain : Verdict := (false, false)

/-! ## Library functions used by the code -/

/-- Go `unicode.ToUpper` on one rune.  Up to `unicode.MaxASCII` the function is
spelled out in the library: `a`..`z` go to `A`..`Z` and the other ASCII runes
are kept.  Above it the library reads the Unicode case tables
(`unicode/tables.go`), which are not part of the repository: `caseTable` is the
upper case they give. -/
def toUpperRune (caseTable : Char → Char) (c : Char) : Char :=
  if c.toNat ≤ 127 then
    if 97 ≤ c.toNat ∧ c.toNat ≤ 122 then Char.ofNat (c.toNat - 32) else c
  else caseTable c

/-- Go `strings.ToUpper`: every rune mapped by `unicode.ToUpper`. -/
def ToUpper (caseTable : Char → Char) (s : String) : String :=
  ⟨s.data.map (toUpperRune caseTable)⟩

/-- Whether the character list `p` starts the character list `s`. -/
def hasPrefixChars : List Char → List Char → Bool
  | _, [] => true
  | [], _ :: _ => false
  | c :: s, d :: p => if c = d then hasPrefixChars s p else false

/-- Whether `p` occurs in `s` at some position, scanning from the left. -/
def containsChars : List Char → List Char → Bool
  | [], p => hasPrefixChars [] p
  | c :: s, p => if hasPrefixChars (c :: s) p then true else containsChars s p

/-- Go `strings.Contains s substr`. -/
def Contains (s substr : String) : Bool := containsChars s.data substr.data

/-! ## Construction, validation and mutators -/

/-- The function `NewAccessListEntry`: the zero value of the struct. -/
def NewAccessListEntry : AccessListEntry :=
  { Action := "", Values := [], Claim := "", Methods := [], Path := "" }

namespace AccessListEntry

/-- The method `Validate`; `none` is the nil error. -/
def Validate (acl : AccessListEntry) : Option ACLError :=
  if acl.Action = "" then some .ErrEmptyACLAction
  else if acl.Action ≠ "allow" ∧ acl.Action ≠ "deny" then
    some (.ErrUnsupportedACLAction acl.Action)
  else if acl.Claim = "" then some .ErrEmptyACLClaim
  else if acl.Values.length = 0 then some .ErrNoValues
  else none

/-- The method `Allow`. -/
def Allow (acl : AccessListEntry) : AccessListEntry := { acl with Action := "allow" }

/-- The method `Deny`. -/
def Deny (acl : AccessListEntry) : AccessListEntry := { acl with Action := "deny" }

/-- The method `SetAction`: the entry after the call and the returned error. -/
def SetAction (acl : AccessListEntry) (s : String) : AccessListEntry × Option ACLError :=
  if s = "" then (acl, some .ErrEmptyACLAction)
  else if s ≠ "allow" ∧ s ≠ "deny" then (acl, some (.ErrUnsupportedACLAction s))
  else ({ acl with Action := s }, none)

/-- The method `SetClaim`. -/
def SetClaim (acl : AccessListEntry) (s : String) : AccessListEntry × Option ACLError :=
  if s = "" then (acl, some .ErrEmptyClaim)
  else if s ≠ "roles" then (acl, some (.ErrUnsupportedClaim s))
  else ({ acl with Claim := s }, none)

/-- The method `AddMethod` on the contents of the fields: what the call does to
an entry whose `Methods` slice shares its backing array with no other slice,
where `append` adds one element and touches nothing else.  `Entry.AddMethod`
is the method on slices in memory. -/
def AddMethod (acl : AccessListEntry) (caseTable : Char → Char) (s : String) :
    AccessListEntry × Option ACLError :=
  if s = "" then (acl, some .ErrEmptyMethod)
  else
    let s := ToUpper caseTable s
    if s = "GET" ∨ s = "POST" ∨ s = "PUT" ∨ s = "PATCH" ∨ s = "DELETE" then
      ({ acl with Methods := acl.Methods ++ [s] }, none)
    else (acl, some (.ErrUnsupportedMethod s))

/-- The method `SetPath`. -/
def SetPath (acl : AccessListEntry) (s : String) : AccessListEntry × Option ACLError :=
  if s = "" then (acl, some .ErrEmptyPath)
  else ({ acl with Path := s }, none)

/-- The method `AddValue` on the contents of the fields: what the call does to
an entry whose `Values` slice shares its backing array with no other slice.
`Entry.AddValue` is the method on slices in memory. -/
def AddValue (acl : AccessListEntry) (s : String) : AccessListEntry × Option ACLError :=
  if s = "" then (acl, some .ErrEmptyValue)
  else ({ acl with Values := acl.Values ++ [s] }, none)

/-- The method `SetValue` on the contents of the fields, `arr` being the elements
of the slice given.  `Entry.SetValue` is the method on slices in memory, which
stores the slice header of the caller. -/
def SetValue (acl : AccessListEntry) (arr : List String) : AccessListEntry × Option ACLError :=
  if arr.length = 0 then (acl, some .ErrEmptyValue)
  else ({ acl with Values := arr }, none)

/-- The method `GetValues`: the values joined by one space. -/
def GetValues (acl : AccessListEntry) : String := " ".intercalate acl.Values

/-! ## The evaluator -/

/-- The inner loop `for _, value := range acl.Values` for one role: whether it
sets `claimMatches`. -/
def valuesLoop (role : String) : List String → Bool
  | [] => false
  | value :: rest =>
    if value = role ∨ value = "*" ∨ value = "any" then true else valuesLoop role rest

/-- The outer loop `for _, role := range claims.Roles`, threading
`claimMatches`; it breaks as soon as the flag is set. -/
def rolesLoop (values : List String) : List String → Bool → Bool
  | [], claimMatches => claimMatches
  | role :: rest, claimMatches =>
    if claimMatches then claimMatches
    else rolesLoop values rest (valuesLoop role values)

/-- The loop `for _, method := range acl.Methods` comparing
`reqMethod.(string)` with each method: the final `methodMatches`, or `none`
when the type assertion panics. -/
def methodsLoop (reqMethod : MetaValue) : List String → Option Bool
  | [] => some false
  | method :: rest =>
    match reqMethod with
    | .str m => if m = method then some true else methodsLoop reqMethod rest
    | _ => none

/-- Lines 174-188: the value of `methodMatches` when filtering is enforced with
the non-nil bag `metadata`, or `none` when the type assertion panics. -/
def methodMatches (acl : AccessListEntry) (metadata : List (String × MetaValue)) :
    Option Bool :=
  if acl.Methods.length < 1 then some true
  else
    match metadata.lookup "method" with
    | some reqMethod => methodsLoop reqMethod acl.Methods
    | none => some true

/-- Lines 190-201: the value of `pathMatches` when filtering is enforced with
the non-nil bag `metadata`, or `none` when the type assertion panics. -/
def pathMatches (acl : AccessListEntry) (metadata : List (String × MetaValue)) :
    Option Bool :=
  if acl.Path = "" then some true
  else
    match metadata.lookup "path" with
    | some (.str reqPath) => some (Contains reqPath acl.Path)
    | some _ => none
    | none => some true

/-- The block `if opts != nil { ... } else { ... }`: the pair
`(methodMatches, pathMatches)`, or `none` when a type assertion panics.  The
method part runs before the path part. -/
def matchMethodPath (acl : AccessListEntry) (opts : Option TokenValidatorOptions) :
    Option (Bool × Bool) :=
  match opts with
  | some o =>
    if o.ValidateMethodPath then
      match o.Metadata with
      | some metadata =>
        match methodMatches acl metadata with
        | none => none
        | some m =>
          match pathMatches acl metadata with
          | none => none
          | some p => some (m, p)
      | none => some (true, true)
    else some (true, true)
  | none => some (true, true)

/-- The method `IsClaimAllowed`: `some` of the returned pair, or `none` when the
call panics. -/
def IsClaimAllowed (acl : AccessListEntry) (claims : UserClaims)
    (opts : Option TokenValidatorOptions) : Option Verdict :=
  if acl.Claim = "roles" then
    if claims.Roles.length = 0 then some (false, false)
    else
      let claimMatches := rolesLoop acl.Values claims.Roles false
      match matchMethodPath acl opts with
      | none => none
      | some (methodMatches, pathMatches) =>
        if claimMatches && methodMatches && pathMatches then
          if acl.Action = "allow" then some (true, false) else some (false, true)
        else some (false, false)
  else some (false, false)

end AccessListEntry

/-! ## The three sub-matches in the words of the specification -/

/-- The metadata bag under which method/path filtering is enforced: the options
are present, the flag is set and the bag is not nil. -/
def enforced : Option TokenValidatorOptions → Option (List (String × MetaValue))
  | some o => if o.ValidateMethodPath then o.Metadata else none
  | none => none

/-- Claim match: the claim kind is `roles` and some role of the claims equals a
value of the rule or meets a wildcard value. -/
def claimMatch (acl : AccessListEntry) (claims : UserClaims) : Prop :=
  acl.Claim = "roles" ∧
    ∃ role ∈ claims.Roles, ∃ value ∈ acl.Values, value = role ∨ value = "*" ∨ value = "any"

instance (acl : AccessListEntry) (claims : UserClaims) : Decidable (claimMatch acl claims) := by
  unfold claimMatch
  infer_instance

/-- Method match: under enforcement, the rule declares no method, or the bag has
no `method` entry, or the entry is one of the rule's methods. -/
def methodMatch (acl : AccessListEntry) (opts : Option TokenValidatorOptions) : Prop :=
  ∀ md, enforced opts = some md →
    acl.Methods = [] ∨ md.lookup "method" = none ∨
      ∃ m ∈ acl.Methods, md.lookup "method" = some (.str m)

/-- The string `sub` occurs in `s` as a contiguous substring. -/
def IsSubstring (sub s : String) : Prop := ∃ pre post : String, s = pre ++ sub ++ post

/-- Path match: under enforcement, the rule declares no path, or the bag has no
`path` entry, or the entry contains the rule's path as a substring. -/
def pathMatch (acl : AccessListEntry) (opts : Option TokenValidatorOptions) : Prop :=
  ∀ md, enforced opts = some md →
    acl.Path = "" ∨ md.lookup "path" = none ∨
      ∃ p, md.lookup "path" = some (.str p) ∧ IsSubstring acl.Path p

/-- The entry of the bag under `key`, when there is one, is a string. -/
def StringEntry (md : List (String × MetaValue)) (key : String) : Prop :=
  ∀ v, md.lookup key = some v → ∃ s, v = .str s

/-- The options carry string-valued `method` and `path` metadata. -/
def StringValued (opts : Option TokenValidatorOptions) : Prop :=
  ∀ md, enforced opts = some md → StringEntry md "method" ∧ StringEntry md "path"

/-! ## The rule built by the authorizer test -/

/-- The loop of `TestGrantValidate` (lines 83-87): `AddValue` on each value in
order, stopping at the first error. -/
def addValues (acl : AccessListEntry) : List String → AccessListEntry × Option ACLError
  | [] => (acl, none)
  | v :: rest =>
    match acl.AddValue v with
    | (acl2, none) => addValues acl2 rest
    | (acl2, some err) => (acl2, some err)

/-- Lines 77-87 of `TestGrantValidate`: a new entry, `Allow`, `SetClaim "roles"`,
then `AddValue` on each value, stopping at the first error. -/
def buildAllowEntry (vs : List String) : AccessListEntry × Option ACLError :=
  match (NewAccessListEntry.Allow).SetClaim "roles" with
  | (entry, none) => addValues entry vs
  | (entry, some err) => (entry, some err)

/-! ## Sequences of mutator calls -/

/-- One call of a mutator on the contents of the fields, with its argument. -/
inductive Call where
  | Allow
  | Deny
  | SetAction (s : String)
  | SetClaim (s : String)
  | AddMethod (s : String)
  | SetPath (s : String)
  | AddValue (s : String)
  | SetValue (arr : List String)
  deriving DecidableEq, Repr

/-- The entry after one call, and the error the call returned (`Allow` and
`Deny` return nothing). -/
def Call.run (caseTable : Char → Char) (acl : AccessListEntry) :
    Call → AccessListEntry × Option ACLError
  | .Allow => (acl.Allow, none)
  | .Deny => (acl.Deny, none)
  | .SetAction s => acl.SetAction s
  | .SetClaim s => acl.SetClaim s
  | .AddMethod s => acl.AddMethod caseTable s
  | .SetPath s => acl.SetPath s
  | .AddValue s => acl.AddValue s
  | .SetValue arr => acl.SetValue arr

/-- The entry after a sequence of calls made in order, each call succeeding or
failing. -/
def runCalls (caseTable : Char → Char) (acl : AccessListEntry) :
    List Call → AccessListEntry
  | [] => acl
  | c :: rest => runCalls caseTable (c.run caseTable acl).1 rest

/-- The five method names accepted by `AddMethod`. -/
def httpMethods : List String := ["GET", "POST", "PUT", "PATCH", "DELETE"]

/-- The invariant of a rule built through the mutators: every method is one of
the five method names, the claim is unset or `roles`, and the action is unset,
`allow` or `deny`. -/
def RuleInv (acl : AccessListEntry) : Prop :=
  (∀ m ∈ acl.Methods, m ∈ httpMethods) ∧ (acl.Claim = "" ∨ acl.Claim = "roles") ∧
    (acl.Action = "" ∨ acl.Action = "allow" ∨ acl.Action = "deny")

/-! ## The round trip through `GetValues` -/

/-- Splitting a character list at every occurrence of `sep`, as Go
`strings.Split` does for a separator of one character; `piece` holds the
characters of the current piece read so far. -/
def splitChars (sep : Char) : List Char → List Char → List (List Char)
  | [], piece => [piece]
  | c :: cs, piece =>
    if c = sep then piece :: splitChars sep cs [] else splitChars sep cs (piece ++ [c])

/-- Go `strings.Split s " "`. -/
def SplitOnSpace (s : String) : List String := (splitChars ' ' s.data []).map String.mk

/-- The round trip of a rule's values: the string of `GetValues` is split on the
space and `AddValue` is called on each piece, on a new entry given the action
and the claim of the rule. -/
def roundTripValues (acl : AccessListEntry) : AccessListEntry × Option ACLError :=
  addValues { Action := acl.Action, Values := [], Claim := acl.Claim, Methods := [], Path := "" }
    (SplitOnSpace acl.GetValues)

/-! ## Failing type assertions -/

/-- The bag has an entry under `key` and it is not a string. -/
def NonStringEntry (md : List (String × MetaValue)) (key : String) : Prop :=
  ∃ v, md.lookup key = some v ∧ ∀ s, v ≠ .str s

/-- A type assertion of `IsClaimAllowed` is reached on a value that is not a
string: the rule has methods and the `method` entry is not a string, or the
rule has a path and the `path` entry is not a string. -/
def assertionFails (acl : AccessListEntry) (md : List (String × MetaValue)) : Prop :=
  (acl.Methods ≠ [] ∧ NonStringEntry md "method") ∨ (acl.Path ≠ "" ∧ NonStringEntry md "path")

/-! ## Slices in memory

`Values` and `Methods` are Go slices: a header (pointer, length, capacity) onto a
backing array.  `append` writes into the backing array when there is spare
capacity, and the header stored by `SetValue` is the one of the caller, so two
slices may share an array.  The definitions below are the mutators on this
memory; `Entry.view` reads the contents of the fields, on which `Validate` and
`IsClaimAllowed` work. -/

/-- The memory that holds the backing arrays of the string slices: the string at
each address, and the first address that no array occupies yet. -/
structure Heap where
  cell : Nat → String
  next : Nat

/-- A slice header: the address of the first element, the length and the
capacity.  The nil slice has length and capacity zero. -/
structure Slice where
  ptr : Nat
  len : Nat
  cap : Nat
  deriving DecidableEq, Repr

/-- The nil slice. -/
def Slice.empty : Slice := { ptr := 0, len := 0, cap := 0 }

/-- The elements of a slice, in order. -/
def Slice.elems (h : Heap) (s : Slice) : List String :=
  (List.range s.len).map fun i => h.cell (s.ptr + i)

/-- The slice expression `s[:k]`: same array and capacity, length `k`. -/
def Slice.upTo (s : Slice) (k : Nat) : Slice := { s with len := k }

/-- Go `append(s, x)`.  With spare capacity the element is written in place,
just after the elements of `s`, and the array is kept.  Without, a new array is
taken at the first free address, the elements are copied into it and `x` is
written after them; its capacity is the length needed plus `slack`, the growth
chosen by the runtime (a function of the old capacity and the length
needed). -/
def goAppend (slack : Nat → Nat → Nat) (h : Heap) (s : Slice) (x : String) : Heap × Slice :=
  if s.len < s.cap then
    ({ h with cell := fun a => if a = s.ptr + s.len then x else h.cell a },
      { s with len := s.len + 1 })
  else
    ({ cell := fun a =>
          if h.next ≤ a ∧ a < h.next + (s.len + 1 + slack s.cap (s.len + 1)) then
            if a < h.next + s.len then h.cell (s.ptr + (a - h.next))
            else if a = h.next + s.len then x else ""
          else h.cell a,
        next := h.next + (s.len + 1 + slack s.cap (s.len + 1)) },
      { ptr := h.next, len := s.len + 1, cap := s.len + 1 + slack s.cap (s.len + 1) })

/-- The growth of the Go runtime on small slices: the capacity doubles. -/
def goSlack (oldCap needed : Nat) : Nat := 2 * oldCap - needed

/-- The struct `AccessListEntry` as it lies in memory: the strings by value, the
two slices by their headers. -/
structure Entry where
  Action : String
  Values : Slice
  Claim : String
  Methods : Slice
  Path : String
  deriving DecidableEq, Repr

/-- The memory together with the entry that a `*AccessListEntry` points to. -/
structure MemState where
  heap : Heap
  entry : Entry

/-- The contents of the fields of the entry. -/
def MemState.view (st : MemState) : AccessListEntry :=
  { Action := st.entry.Action,
    Values := st.entry.Values.elems st.heap,
    Claim := st.entry.Claim,
    Methods := st.entry.Methods.elems st.heap,
    Path := st.entry.Path }

/-- The function `NewAccessListEntry` in memory: the zero value of the struct,
both slices nil. -/
def NewEntry : Entry :=
  { Action := "", Values := Slice.empty, Claim := "", Methods := Slice.empty, Path := "" }

namespace Entry

/-- The method `Allow` in memory. -/
def Allow (st : MemState) : MemState := { st with entry := { st.entry with Action := "allow" } }

/-- The method `Deny` in memory. -/
def Deny (st : MemState) : MemState := { st with entry := { st.entry with Action := "deny" } }

/-- The method `SetAction` in memory: the state after the call and the error. -/
def SetAction (st : MemState) (s : String) : MemState × Option ACLError :=
  if s = "" then (st, some .ErrEmptyACLAction)
  else if s ≠ "allow" ∧ s ≠ "deny" then (st, some (.ErrUnsupportedACLAction s))
  else ({ st with entry := { st.entry with Action := s } }, none)

/-- The method `SetClaim` in memory. -/
def SetClaim (st : MemState) (s : String) : MemState × Option ACLError :=
  if s = "" then (st, some .ErrEmptyClaim)
  else if s ≠ "roles" then (st, some (.ErrUnsupportedClaim s))
  else ({ st with entry := { st.entry with Claim := s } }, none)

/-- The method `AddMethod` in memory: `acl.Methods = append(acl.Methods, s)`. -/
def AddMethod (caseTable : Char → Char) (slack : Nat → Nat → Nat) (st : MemState)
    (s : String) : MemState × Option ACLError :=
  if s = "" then (st, some .ErrEmptyMethod)
  else
    let s := ToUpper caseTable s
    if s = "GET" ∨ s = "POST" ∨ s = "PUT" ∨ s = "PATCH" ∨ s = "DELETE" then
      ({ heap := (goAppend slack st.heap st.entry.Methods s).1,
         entry := { st.entry with Methods := (goAppend slack st.heap st.entry.Methods s).2 } },
        none)
    else (st, some (.ErrUnsupportedMethod s))

/-- The method `SetPath` in memory. -/
def SetPath (st : MemState) (s : String) : MemState × Option ACLError :=
  if s = "" then (st, some .ErrEmptyPath)
  else ({ st with entry := { st.entry with Path := s } }, none)

/-- The method `AddValue` in memory: `acl.Values = append(acl.Values, s)`. -/
def AddValue (slack : Nat → Nat → Nat) (st : MemState) (s : String) :
    MemState × Option ACLError :=
  if s = "" then (st, some .ErrEmptyValue)
  else
    ({ heap := (goAppend slack st.heap st.entry.Values s).1,
       entry := { st.entry with Values := (goAppend slack st.heap st.entry.Values s).2 } },
      none)

/-- The method `SetValue` in memory: `acl.Values = arr` stores the header of the
slice given, whose array stays shared with the caller. -/
def SetValue (st : MemState) (arr : Slice) : MemState × Option ACLError :=
  if arr.len = 0 then (st, some .ErrEmptyValue)
  else ({ st with entry := { st.entry with Values := arr } }, none)

end Entry

/-- One call of a mutator on the entry in memory; the argument of `SetValue` is
the header of a slice of the caller. -/
inductive MemCall where
  | Allow
  | Deny
  | SetAction (s : String)
  | SetClaim (s : String)
  | AddMethod (s : String)
  | SetPath (s : String)
  | AddValue (s : String)
  | SetValue (arr : Slice)
  deriving DecidableEq, Repr

/-- The state after one call, and the error the call returned. -/
def MemCall.run (caseTable : Char → Char) (slack : Nat → Nat → Nat) (st : MemState) :
    MemCall → MemState × Option ACLError
  | .Allow => (Entry.Allow st, none)
  | .Deny => (Entry.Deny st, none)
  | .SetAction s => Entry.SetAction st s
  | .SetClaim s => Entry.SetClaim st s
  | .AddMethod s => Entry.AddMethod caseTable slack st s
  | .SetPath s => Entry.SetPath st s
  | .AddValue s => Entry.AddValue slack st s
  | .SetValue arr => Entry.SetValue st arr

/-- The state after a sequence of calls made in order, each call succeeding or
failing. -/
def runMemCalls (caseTable : Char → Char) (slack : Nat → Nat → Nat) (st : MemState) :
    List MemCall → MemState
  | [] => st
  | c :: rest => runMemCalls caseTable slack (c.run caseTable slack st).1 rest

/-- The state in which `NewAccessListEntry` returns: nothing allocated, both
slices nil. -/
def NewState : MemState := { heap := { cell := fun _ => "", next := 0 }, entry := NewEntry }

/-- A slice lies in memory: its length is within its capacity and its array is
allocated. -/
def Slice.Allocated (h : Heap) (s : Slice) : Prop := s.len ≤ s.cap ∧ s.ptr + s.cap ≤ h.next

/-- Two slices share no address of their arrays: one of them has no capacity, or
the array of one ends before the array of the other begins. -/
def Slice.Apart (a b : Slice) : Prop :=
  a.cap = 0 ∨ b.cap = 0 ∨ a.ptr + a.cap ≤ b.ptr ∨ b.ptr + b.cap ≤ a.ptr

instance (h : Heap) (s : Slice) : Decidable (s.Allocated h) := by
  unfold Slice.Allocated
  infer_instance

instance (a b : Slice) : Decidable (a.Apart b) := by
  unfold Slice.Apart
  infer_instance

/-- The entry has its two slices in memory and they share no array. -/
def Separate (st : MemState) : Prop :=
  st.entry.Values.Allocated st.heap ∧ st.entry.Methods.Allocated st.heap ∧
    st.entry.Values.Apart st.entry.Methods

instance (st : MemState) : Decidable (Separate st) := by
  unfold Separate
  infer_instance

/-- A sequence of calls in which every slice given to `SetValue` is, when the
call is made, empty or in memory and sharing no array with the methods of the
entry. -/
def SetValueApart (caseTable : Char → Char) (slack : Nat → Nat → Nat) :
    MemState → List MemCall → Prop
  | _, [] => True
  | st, c :: rest =>
    (match c with
      | .SetValue arr =>
        arr.len = 0 ∨ (arr.Allocated st.heap ∧ arr.Apart st.entry.Methods)
      | _ => True) ∧
    SetValueApart caseTable slack (c.run caseTable slack st).1 rest

/-- The call on the contents of the fields that a call in memory amounts to:
the slice given to `SetValue` is read where it lies. -/
def MemCall.contents (h : Heap) : MemCall → Call
  | .Allow => .Allow
  | .Deny => .Deny
  | .SetAction s => .SetAction s
  | .SetClaim s => .SetClaim s
  | .AddMethod s => .AddMethod s
  | .SetPath s => .SetPath s
  | .AddValue s => .AddValue s
  | .SetValue arr => .SetValue (arr.elems h)

/-- The calls on the contents of the fields that a sequence of calls in memory
amounts to, each slice given to `SetValue` being read when its call is made. -/
def callContents (caseTable : Char → Char) (slack : Nat → Nat → Nat) :
    MemState → List MemCall → List Call
  | _, [] => []
  | st, c :: rest =>
    c.contents st.heap :: callContents caseTable slack (c.run caseTable slack st).1 rest

/-! ## Lemmas on the loops and the library functions -/

namespace AccessListEntry

theorem valuesLoop_eq_true (role : String) (values : List String) :
    valuesLoop role values = true ↔
      ∃ value ∈ values, value = role ∨ value = "*" ∨ value = "any" := by
  induction values with
  | nil => simp [valuesLoop]
  | cons v rest ih =>
    by_cases h : v = role ∨ v = "*" ∨ v = "any"
    · simp only [valuesLoop, if_pos h, true_iff]
      exact ⟨v, List.mem_cons_self _ _, h⟩
    · simp only [valuesLoop, if_neg h, ih, List.mem_cons]
      constructor
      · rintro ⟨w, hw, hm⟩
        exact ⟨w, Or.inr hw, hm⟩
      · rintro ⟨w, hw | hw, hm⟩
        · exact absurd (hw ▸ hm) h
        · exact ⟨w, hw, hm⟩

theorem rolesLoop_true (values roles : List String) : rolesLoop values roles true = true := by
  cases roles <;> simp [rolesLoop]

theorem rolesLoop_false (values roles : List String) :
    rolesLoop values roles false = true ↔
      ∃ role ∈ roles, ∃ value ∈ values, value = role ∨ value = "*" ∨ value = "any" := by
  induction roles with
  | nil => simp [rolesLoop]
  | cons r rest ih =>
    simp only [rolesLoop, Bool.false_eq_true, if_false, List.mem_cons]
    cases hv : valuesLoop r values with
    | true =>
      simp only [rolesLoop_true, true_iff]
      exact ⟨r, Or.inl rfl, (valuesLoop_eq_true r values).1 hv⟩
    | false =>
      rw [ih]
      constructor
      · rintro ⟨w, hw, hm⟩
        exact ⟨w, Or.inr hw, hm⟩
      · rintro ⟨w, hw | hw, hm⟩
        · subst hw
          rw [← valuesLoop_eq_true, hv] at hm
          exact absurd hm (by simp)
        · exact ⟨w, hw, hm⟩

theorem methodsLoop_str (m : String) (methods : List String) :
    methodsLoop (.str m) methods = some (decide (m ∈ methods)) := by
  induction methods with
  | nil => simp [methodsLoop]
  | cons x rest ih =>
    by_cases h : m = x
    · simp [methodsLoop, h]
    · simp [methodsLoop, h, ih]

theorem methodsLoop_not_str (v : MetaValue) (hv : ∀ s, v ≠ .str s) (x : String)
    (rest : List String) : methodsLoop v (x :: rest) = none := by
  cases v with
  | str s => exact absurd rfl (hv s)
  | int n => rfl
  | bool b => rfl
  | null => rfl

end AccessListEntry

theorem hasPrefixChars_iff (s p : List Char) :
    hasPrefixChars s p = true ↔ ∃ post, s = p ++ post := by
  induction p generalizing s with
  | nil => simp [hasPrefixChars]
  | cons d p ih =>
    cases s with
    | nil => simp [hasPrefixChars]
    | cons c s =>
      by_cases h : c = d
      · subst h
        simp [hasPrefixChars, ih]
      · simp [hasPrefixChars, h]

theorem containsChars_iff (s p : List Char) :
    containsChars s p = true ↔ ∃ pre post, s = pre ++ p ++ post := by
  induction s with
  | nil =>
    simp only [containsChars, hasPrefixChars_iff]
    constructor
    · rintro ⟨post, h⟩
      exact ⟨[], post, by simpa using h⟩
    · rintro ⟨pre, post, h⟩
      have h1 : pre ++ p ++ post = [] := h.symm
      simp only [List.append_eq_nil] at h1
      exact ⟨[], by simp [h1.1.2]⟩
  | cons c s ih =>
    by_cases hp : hasPrefixChars (c :: s) p = true
    · simp only [containsChars, hp, if_true, true_iff]
      obtain ⟨post, h⟩ := (hasPrefixChars_iff _ _).1 hp
      exact ⟨[], post, by simpa using h⟩
    · simp only [containsChars, hp, if_false, ih, Bool.false_eq_true]
      constructor
      · rintro ⟨pre, post, h⟩
        exact ⟨c :: pre, post, by simp [h]⟩
      · rintro ⟨pre, post, h⟩
        cases pre with
        | nil =>
          exact absurd ((hasPrefixChars_iff _ _).2 ⟨post, by simpa using h⟩) hp
        | cons x pre =>
          simp only [List.cons_append, List.cons.injEq] at h
          exact ⟨pre, post, h.2⟩

theorem Contains_iff (s sub : String) : Contains s sub = true ↔ IsSubstring sub s := by
  unfold Contains IsSubstring
  rw [containsChars_iff]
  constructor
  · rintro ⟨pre, post, h⟩
    exact ⟨⟨pre⟩, ⟨post⟩, String.ext (by simpa using h)⟩
  · rintro ⟨pre, post, h⟩
    exact ⟨pre.data, post.data, by simp [h]⟩

/-! ## Lemmas on the method/path block and the final verdict -/

namespace AccessListEntry

theorem matchMethodPath_not_enforced (acl : AccessListEntry)
    (opts : Option TokenValidatorOptions) (h : enforced opts = none) :
    matchMethodPath acl opts = some (true, true) := by
  cases opts with
  | none => rfl
  | some o =>
    obtain ⟨flag, md⟩ := o
    cases flag <;> cases md <;> simp_all [enforced, matchMethodPath]

theorem matchMethodPath_enforced (acl : AccessListEntry)
    (opts : Option TokenValidatorOptions) (md : List (String × MetaValue))
    (h : enforced opts = some md) :
    matchMethodPath acl opts =
      (methodMatches acl md).bind fun m => (pathMatches acl md).map fun p => (m, p) := by
  cases opts with
  | none => simp [enforced] at h
  | some o =>
    obtain ⟨flag, md0⟩ := o
    cases flag <;> cases md0 <;> simp_all [enforced, matchMethodPath]
    cases methodMatches acl md <;> simp
    cases pathMatches acl md <;> simp

theorem methodMatches_spec (acl : AccessListEntry) (md : List (String × MetaValue))
    (hs : StringEntry md "method") :
    ∃ m, methodMatches acl md = some m ∧
      (m = true ↔ (acl.Methods = [] ∨ md.lookup "method" = none ∨
        ∃ x ∈ acl.Methods, md.lookup "method" = some (.str x))) := by
  unfold methodMatches
  cases hM : acl.Methods with
  | nil => exact ⟨true, by simp, by simp⟩
  | cons x rest =>
    cases hl : md.lookup "method" with
    | none => exact ⟨true, by simp, by simp⟩
    | some v =>
      obtain ⟨w, rfl⟩ := hs v hl
      refine ⟨decide (w ∈ x :: rest), by simp [methodsLoop_str], ?_⟩
      simp only [decide_eq_true_eq, reduceCtorEq, false_or, Option.some.injEq,
        MetaValue.str.injEq]
      constructor
      · intro hw
        exact ⟨w, hw, rfl⟩
      · rintro ⟨y, hy, rfl⟩
        exact hy

theorem pathMatches_spec (acl : AccessListEntry) (md : List (String × MetaValue))
    (hs : StringEntry md "path") :
    ∃ p, pathMatches acl md = some p ∧
      (p = true ↔ (acl.Path = "" ∨ md.lookup "path" = none ∨
        ∃ q, md.lookup "path" = some (.str q) ∧ IsSubstring acl.Path q)) := by
  unfold pathMatches
  by_cases hP : acl.Path = ""
  · exact ⟨true, by simp [hP], by simp [hP]⟩
  · cases hl : md.lookup "path" with
    | none => exact ⟨true, by simp [hP], by simp⟩
    | some v =>
      obtain ⟨w, rfl⟩ := hs v hl
      refine ⟨Contains w acl.Path, by simp [hP], ?_⟩
      simp only [Contains_iff, hP, reduceCtorEq, false_or, Option.some.injEq,
        MetaValue.str.injEq]
      constructor
      · intro hw
        exact ⟨w, rfl, hw⟩
      · rintro ⟨y, rfl, hy⟩
        exact hy

/-- With string-valued metadata the method/path block returns, and its two
flags are the method match and the path match of the specification. -/
theorem matchMethodPath_spec (acl : AccessListEntry) (opts : Option TokenValidatorOptions)
    (hs : StringValued opts) :
    ∃ m p, matchMethodPath acl opts = some (m, p) ∧
      (m = true ↔ methodMatch acl opts) ∧ (p = true ↔ pathMatch acl opts) := by
  cases he : enforced opts with
  | none =>
    refine ⟨true, true, matchMethodPath_not_enforced acl opts he, ?_, ?_⟩
    · simp [methodMatch, he]
    · simp [pathMatch, he]
  | some md =>
    obtain ⟨hm, hp⟩ := hs md he
    obtain ⟨m, hm1, hm2⟩ := methodMatches_spec acl md hm
    obtain ⟨p, hp1, hp2⟩ := pathMatches_spec acl md hp
    refine ⟨m, p, ?_, ?_, ?_⟩
    · rw [matchMethodPath_enforced acl opts md he, hm1, hp1]
      rfl
    · simp only [methodMatch, he, Option.some.injEq, forall_eq', hm2]
    · simp only [pathMatch, he, Option.some.injEq, forall_eq', hp2]

/-- The claim part of `IsClaimAllowed` as one boolean. -/
theorem claimPart_iff (acl : AccessListEntry) (claims : UserClaims) :
    (acl.Claim = "roles" ∧ rolesLoop acl.Values claims.Roles false = true) ↔
      claimMatch acl claims := by
  unfold claimMatch
  rw [rolesLoop_false]

/-- The verdict of `IsClaimAllowed` once the method/path block has returned. -/
theorem IsClaimAllowed_of_match (acl : AccessListEntry) (claims : UserClaims)
    (opts : Option TokenValidatorOptions) (m p : Bool)
    (h : matchMethodPath acl opts = some (m, p)) :
    IsClaimAllowed acl claims opts =
      some (if claimMatch acl claims ∧ m = true ∧ p = true then
        (if acl.Action = "allow" then Verdict.Permit else Verdict.Deny)
      else Verdict.Abstain) := by
  unfold IsClaimAllowed
  by_cases hc : acl.Claim = "roles"
  · cases hr : claims.Roles with
    | nil => simp [hc, claimMatch, hr, Verdict.Abstain]
    | cons r rest =>
      have hcm := claimPart_iff acl claims
      simp only [hc, true_and, hr] at hcm
      simp only [hc, if_true, List.length_cons, Nat.succ_ne_zero, if_false, h,
        Bool.and_eq_true, and_assoc, hcm, Verdict.Permit, Verdict.Deny, Verdict.Abstain]
      split_ifs <;> rfl
  · simp [hc, claimMatch, Verdict.Abstain]

end AccessListEntry

namespace AccessListEntry

/-- Two rules with the same action, claim and values whose method/path blocks
agree on the options return the same verdict. -/
theorem IsClaimAllowed_congr (acl acl2 : AccessListEntry) (claims : UserClaims)
    (opts : Option TokenValidatorOptions) (ha : acl2.Action = acl.Action)
    (hc : acl2.Claim = acl.Claim) (hv : acl2.Values = acl.Values)
    (hm : matchMethodPath acl2 opts = matchMethodPath acl opts) :
    IsClaimAllowed acl2 claims opts = IsClaimAllowed acl claims opts := by
  unfold IsClaimAllowed
  rw [ha, hc, hv, hm]

/-- The method/path block under enforcement, for options given by their fields. -/
theorem matchMethodPath_some (acl : AccessListEntry) (o : TokenValidatorOptions)
    (md : List (String × MetaValue)) (hflag : o.ValidateMethodPath = true)
    (hmd : o.Metadata = some md) :
    matchMethodPath acl (some o) =
      (methodMatches acl md).bind fun m => (pathMatches acl md).map fun p => (m, p) :=
  matchMethodPath_enforced acl (some o) md (by simp [enforced, hflag, hmd])

theorem methodMatches_no_methods (acl : AccessListEntry) (md : List (String × MetaValue))
    (h : acl.Methods = []) : methodMatches acl md = some true := by
  simp [methodMatches, h]

theorem methodMatches_no_key (acl : AccessListEntry) (md : List (String × MetaValue))
    (h : md.lookup "method" = none) : methodMatches acl md = some true := by
  unfold methodMatches
  rw [h]
  split_ifs <;> rfl

theorem methodMatches_str (acl : AccessListEntry) (md : List (String × MetaValue))
    (m : String) (hne : acl.Methods ≠ []) (h : md.lookup "method" = some (.str m)) :
    methodMatches acl md = some (decide (m ∈ acl.Methods)) := by
  unfold methodMatches
  have hlen : ¬ acl.Methods.length < 1 := by
    cases hM : acl.Methods with
    | nil => exact absurd hM hne
    | cons x rest => simp
  rw [if_neg hlen, h]
  exact methodsLoop_str m acl.Methods

theorem pathMatches_no_path (acl : AccessListEntry) (md : List (String × MetaValue))
    (h : acl.Path = "") : pathMatches acl md = some true := by
  simp [pathMatches, h]

theorem pathMatches_no_key (acl : AccessListEntry) (md : List (String × MetaValue))
    (h : md.lookup "path" = none) : pathMatches acl md = some true := by
  unfold pathMatches
  rw [h]
  split_ifs <;> rfl

theorem pathMatches_str (acl : AccessListEntry) (md : List (String × MetaValue))
    (p : String) (hne : acl.Path ≠ "") (h : md.lookup "path" = some (.str p)) :
    pathMatches acl md = some (Contains p acl.Path) := by
  unfold pathMatches
  rw [if_neg hne, h]

/-- The path part returns when the rule has no path or the entry is a string. -/
theorem pathMatches_isSome (acl : AccessListEntry) (md : List (String × MetaValue))
    (h : acl.Path = "" ∨ StringEntry md "path") : ∃ p, pathMatches acl md = some p := by
  rcases h with h | h
  · exact ⟨true, pathMatches_no_path acl md h⟩
  · obtain ⟨p, hp, _⟩ := pathMatches_spec acl md h
    exact ⟨p, hp⟩

/-- The method part returns when the rule has no method or the entry is a string. -/
theorem methodMatches_isSome (acl : AccessListEntry) (md : List (String × MetaValue))
    (h : acl.Methods = [] ∨ StringEntry md "method") :
    ∃ m, methodMatches acl md = some m := by
  rcases h with h | h
  · exact ⟨true, methodMatches_no_methods acl md h⟩
  · obtain ⟨m, hm, _⟩ := methodMatches_spec acl md h
    exact ⟨m, hm⟩

/-- A failed method or path sub-match gives Abstain. -/
theorem IsClaimAllowed_abstain_of_match (acl : AccessListEntry) (claims : UserClaims)
    (opts : Option TokenValidatorOptions) (m p : Bool)
    (h : matchMethodPath acl opts = some (m, p)) (hmp : m = false ∨ p = false) :
    IsClaimAllowed acl claims opts = some Verdict.Abstain := by
  rw [IsClaimAllowed_of_match acl claims opts m p h]
  rcases hmp with hm | hp
  · simp [hm]
  · simp [hp]

end AccessListEntry

/-! ## The verdict as a conjunction of the three sub-matches -/

/-- C1: with string-valued method/path metadata, `IsClaimAllowed` returns Permit
when the claim, method and path matches all hold and the action is `allow`,
Deny when all three hold and the action is `deny`, and Abstain when one of the
three fails; it never returns `(true, true)`. -/
theorem C1_verdict_of_sub_matches (acl : AccessListEntry) (claims : UserClaims)
    (opts : Option TokenValidatorOptions) (hs : StringValued opts) :
    (claimMatch acl claims ∧ methodMatch acl opts ∧ pathMatch acl opts →
        acl.Action = "allow" → acl.IsClaimAllowed claims opts = some Verdict.Permit) ∧
      (claimMatch acl claims ∧ methodMatch acl opts ∧ pathMatch acl opts →
        acl.Action = "deny" → acl.IsClaimAllowed claims opts = some Verdict.Deny) ∧
      (¬ (claimMatch acl claims ∧ methodMatch acl opts ∧ pathMatch acl opts) →
        acl.IsClaimAllowed claims opts = some Verdict.Abstain) ∧
      acl.IsClaimAllowed claims opts ≠ some (true, true) := by
  obtain ⟨m, p, h, hm, hp⟩ := AccessListEntry.matchMethodPath_spec acl opts hs
  rw [AccessListEntry.IsClaimAllowed_of_match acl claims opts m p h, ← hm, ← hp]
  refine ⟨?_, ?_, ?_, ?_⟩
  · intro h3 ha
    rw [if_pos h3, if_pos ha]
  · intro h3 ha
    have hna : acl.Action ≠ "allow" := by
      rw [ha]
      decide
    rw [if_pos h3, if_neg hna]
  · intro h3
    rw [if_neg h3]
  · split_ifs <;> simp [Verdict.Permit, Verdict.Deny, Verdict.Abstain]

/-- An instance of C1: an allow rule restricted to `GET` under `/api`, evaluated
on a matching request with string-valued metadata, returns Permit. -/
theorem C1_verdict_of_sub_matches_witness :
    StringValued
        (some ⟨true, some [("method", .str "GET"), ("path", .str "/v1/api/users")]⟩) ∧
      AccessListEntry.IsClaimAllowed
        { Action := "allow", Values := ["anonymous", "guest"], Claim := "roles",
          Methods := ["GET"], Path := "/api" }
        ⟨["anonymous"]⟩
        (some ⟨true, some [("method", .str "GET"), ("path", .str "/v1/api/users")]⟩) =
        some Verdict.Permit := by
  have hs : StringValued
      (some ⟨true, some [("method", .str "GET"), ("path", .str "/v1/api/users")]⟩) := by
    intro md hmd
    simp only [enforced, if_true, Option.some.injEq] at hmd
    subst hmd
    constructor
    · intro v hv
      exact ⟨"GET", by simpa [List.lookup] using hv.symm⟩
    · intro v hv
      exact ⟨"/v1/api/users", by simpa [List.lookup] using hv.symm⟩
  refine ⟨hs, (C1_verdict_of_sub_matches _ _ _ hs).1 ⟨by decide, ?_, ?_⟩ rfl⟩
  · intro md hmd
    simp only [enforced, if_true, Option.some.injEq] at hmd
    subst hmd
    exact Or.inr (Or.inr ⟨"GET", by simp, by simp [List.lookup]⟩)
  · intro md hmd
    simp only [enforced, if_true, Option.some.injEq] at hmd
    subst hmd
    exact Or.inr (Or.inr ⟨"/v1/api/users", by simp [List.lookup], "/v1", "/users", by decide⟩)

/-- C2: for a rule on the `roles` claim evaluated with no options, the verdict is
Permit or Deny exactly when some role of the claims equals a value of the rule
or the rule has a wildcard value `*` or `any` (and it is Abstain otherwise); a
wildcard value matches every non-empty role set, and literal values that equal
no role give Abstain, as for values `[anonymous, guest]` and roles `[admin]`. -/
theorem C2_roles_claim_match (acl : AccessListEntry) (claims : UserClaims)
    (hc : acl.Claim = "roles") :
    ((∃ v, acl.IsClaimAllowed claims none = some v ∧ v ≠ Verdict.Abstain) ↔
        ∃ r ∈ claims.Roles, ∃ v ∈ acl.Values, v = r ∨ v = "*" ∨ v = "any") ∧
      ((¬ ∃ r ∈ claims.Roles, ∃ v ∈ acl.Values, v = r ∨ v = "*" ∨ v = "any") →
        acl.IsClaimAllowed claims none = some Verdict.Abstain) ∧
      (("*" ∈ acl.Values ∨ "any" ∈ acl.Values) → claims.Roles ≠ [] →
        ∃ v, acl.IsClaimAllowed claims none = some v ∧ v ≠ Verdict.Abstain) ∧
      ((∀ v ∈ acl.Values, v ≠ "*" ∧ v ≠ "any" ∧ v ∉ claims.Roles) →
        acl.IsClaimAllowed claims none = some Verdict.Abstain) ∧
      (acl.Values = ["anonymous", "guest"] → claims.Roles = ["admin"] →
        acl.IsClaimAllowed claims none = some Verdict.Abstain) := by
  have hv := AccessListEntry.IsClaimAllowed_of_match acl claims none true true rfl
  simp only [claimMatch, hc, true_and, and_true] at hv
  have hyes : (∃ r ∈ claims.Roles, ∃ v ∈ acl.Values, v = r ∨ v = "*" ∨ v = "any") →
      ∃ v, acl.IsClaimAllowed claims none = some v ∧ v ≠ Verdict.Abstain := by
    intro hex
    rw [hv, if_pos hex]
    split_ifs
    · exact ⟨_, rfl, by simp [Verdict.Permit, Verdict.Abstain]⟩
    · exact ⟨_, rfl, by simp [Verdict.Deny, Verdict.Abstain]⟩
  have hno : (¬ ∃ r ∈ claims.Roles, ∃ v ∈ acl.Values, v = r ∨ v = "*" ∨ v = "any") →
      acl.IsClaimAllowed claims none = some Verdict.Abstain := by
    intro hex
    rw [hv, if_neg hex]
  refine ⟨⟨?_, hyes⟩, hno, ?_, ?_, ?_⟩
  · rintro ⟨v, h1, h2⟩
    by_contra hex
    rw [hno hex, Option.some.injEq] at h1
    exact h2 h1.symm
  · intro hw hr
    obtain ⟨r, hr⟩ := List.exists_mem_of_ne_nil _ hr
    rcases hw with hw | hw
    · exact hyes ⟨r, hr, "*", hw, Or.inr (Or.inl rfl)⟩
    · exact hyes ⟨r, hr, "any", hw, Or.inr (Or.inr rfl)⟩
  · intro hlit
    apply hno
    rintro ⟨r, hr, v, hv, h⟩
    obtain ⟨h1, h2, h3⟩ := hlit v hv
    rcases h with h | h | h
    · exact h3 (h ▸ hr)
    · exact h1 h
    · exact h2 h
  · intro hvals hroles
    apply hno
    rw [hvals, hroles]
    decide

/-- An instance of C2: the rule with values `[anonymous, guest]` abstains on the
roles `[admin]`. -/
theorem C2_roles_claim_match_witness :
    AccessListEntry.IsClaimAllowed
      { Action := "allow", Values := ["anonymous", "guest"], Claim := "roles",
        Methods := [], Path := "" } ⟨["admin"]⟩ none = some Verdict.Abstain :=
  (C2_roles_claim_match
    { Action := "allow", Values := ["anonymous", "guest"], Claim := "roles",
      Methods := [], Path := "" } ⟨["admin"]⟩ rfl).2.2.2.2 rfl rfl

/-- C3: with enforcement on and a non-nil bag, a missing `method` key makes the
verdict equal to that of the rule with its methods emptied, a missing `path`
key makes it equal to that of the rule with its path cleared, and with both
keys missing the verdict is the one obtained with no options. -/
theorem C3_fail_open_on_missing_metadata (acl : AccessListEntry) (claims : UserClaims)
    (o : TokenValidatorOptions) (md : List (String × MetaValue))
    (hflag : o.ValidateMethodPath = true) (hmd : o.Metadata = some md) :
    (md.lookup "method" = none →
        acl.IsClaimAllowed claims (some o) =
          AccessListEntry.IsClaimAllowed { acl with Methods := [] } claims (some o)) ∧
      (md.lookup "path" = none →
        acl.IsClaimAllowed claims (some o) =
          AccessListEntry.IsClaimAllowed { acl with Path := "" } claims (some o)) ∧
      (md.lookup "method" = none → md.lookup "path" = none →
        acl.IsClaimAllowed claims (some o) = acl.IsClaimAllowed claims none) := by
  refine ⟨?_, ?_, ?_⟩
  · intro hk
    symm
    refine AccessListEntry.IsClaimAllowed_congr acl _ claims (some o) ?_ ?_ ?_ ?_ <;> try rfl
    rw [AccessListEntry.matchMethodPath_some acl o md hflag hmd,
      AccessListEntry.matchMethodPath_some _ o md hflag hmd,
      AccessListEntry.methodMatches_no_key acl md hk,
      AccessListEntry.methodMatches_no_key _ md hk]
    rfl
  · intro hk
    symm
    refine AccessListEntry.IsClaimAllowed_congr acl _ claims (some o) ?_ ?_ ?_ ?_ <;> try rfl
    rw [AccessListEntry.matchMethodPath_some acl o md hflag hmd,
      AccessListEntry.matchMethodPath_some _ o md hflag hmd,
      AccessListEntry.pathMatches_no_key acl md hk,
      AccessListEntry.pathMatches_no_key _ md hk]
    rfl
  · intro hk1 hk2
    unfold AccessListEntry.IsClaimAllowed
    rw [AccessListEntry.matchMethodPath_some acl o md hflag hmd,
      AccessListEntry.methodMatches_no_key acl md hk1,
      AccessListEntry.pathMatches_no_key acl md hk2]
    rfl

/-- An instance of C3: a deny rule restricted to `GET` under `/admin`, asked
with an empty metadata bag, denies as it does with no options. -/
theorem C3_fail_open_on_missing_metadata_witness :
    AccessListEntry.IsClaimAllowed
        { Action := "deny", Values := ["*"], Claim := "roles", Methods := ["GET"],
          Path := "/admin" } ⟨["guest"]⟩ (some ⟨true, some []⟩) =
      AccessListEntry.IsClaimAllowed
        { Action := "deny", Values := ["*"], Claim := "roles", Methods := ["GET"],
          Path := "/admin" } ⟨["guest"]⟩ none :=
  (C3_fail_open_on_missing_metadata
    { Action := "deny", Values := ["*"], Claim := "roles", Methods := ["GET"],
      Path := "/admin" } ⟨["guest"]⟩ ⟨true, some []⟩ [] rfl rfl).2.2 rfl rfl

/-- C4: the verdict is the same with no options, with the enforcement flag off
(whatever the metadata), and with the flag on but a nil metadata bag; in these
three cases replacing the rule's methods and path by any others leaves the
verdict unchanged. -/
theorem C4_filtering_bypass (acl : AccessListEntry) (claims : UserClaims)
    (md : Option (List (String × MetaValue))) (methods : List String) (path : String) :
    acl.IsClaimAllowed claims (some ⟨false, md⟩) = acl.IsClaimAllowed claims none ∧
      acl.IsClaimAllowed claims (some ⟨true, none⟩) = acl.IsClaimAllowed claims none ∧
      AccessListEntry.IsClaimAllowed { acl with Methods := methods, Path := path } claims
          none = acl.IsClaimAllowed claims none ∧
      AccessListEntry.IsClaimAllowed { acl with Methods := methods, Path := path } claims
          (some ⟨false, md⟩) = acl.IsClaimAllowed claims (some ⟨false, md⟩) ∧
      AccessListEntry.IsClaimAllowed { acl with Methods := methods, Path := path } claims
          (some ⟨true, none⟩) = acl.IsClaimAllowed claims (some ⟨true, none⟩) := by
  refine ⟨?_, ?_, ?_, ?_, ?_⟩
  · rfl
  · rfl
  · refine AccessListEntry.IsClaimAllowed_congr acl _ claims _ ?_ ?_ ?_ ?_ <;> rfl
  · refine AccessListEntry.IsClaimAllowed_congr acl _ claims _ ?_ ?_ ?_ ?_ <;> rfl
  · refine AccessListEntry.IsClaimAllowed_congr acl _ claims _ ?_ ?_ ?_ ?_ <;> rfl

/-! ## Method and path filters -/

/-- C5, as stated, fails: with a string `method` entry that is none of the rule's
methods, a non-string `path` entry makes the call panic on the path assertion
instead of returning Abstain. -/
theorem C5_method_filter_counterexample :
    AccessListEntry.Methods
        { Action := "deny", Values := ["*"], Claim := "roles", Methods := ["GET"],
          Path := "/admin" } ≠ [] ∧
      List.lookup "method" [("method", MetaValue.str "DELETE"), ("path", MetaValue.int 7)] =
        some (.str "DELETE") ∧
      "DELETE" ∉ AccessListEntry.Methods
        { Action := "deny", Values := ["*"], Claim := "roles", Methods := ["GET"],
          Path := "/admin" } ∧
      AccessListEntry.IsClaimAllowed
        { Action := "deny", Values := ["*"], Claim := "roles", Methods := ["GET"],
          Path := "/admin" } ⟨["admin"]⟩
        (some ⟨true, some [("method", .str "DELETE"), ("path", .int 7)]⟩) = none ∧
      AccessListEntry.IsClaimAllowed
        { Action := "deny", Values := ["*"], Claim := "roles", Methods := ["GET"],
          Path := "/admin" } ⟨["admin"]⟩
        (some ⟨true, some [("method", .str "DELETE"), ("path", .int 7)]⟩) ≠
        some Verdict.Abstain := by
  decide

/-- C5, amended: for a rule with methods, enforcement on and a string `method`
entry `m` in the bag: if `m` is not exactly one of the rule's methods and the
rule has no path or the bag's `path` entry is missing or a string, the verdict
is Abstain whatever the action, the roles and the path; if `m` is one of the
rule's methods, the verdict is that of the rule with its methods emptied.  The
entry is compared as it is: the rule built by `AddMethod "get"` holds `GET` and
abstains on the request method `get`. -/
theorem C5_method_filter (caseTable : Char → Char) (acl : AccessListEntry)
    (claims : UserClaims) (o : TokenValidatorOptions) (md : List (String × MetaValue))
    (m : String)
    (hne : acl.Methods ≠ []) (hflag : o.ValidateMethodPath = true)
    (hmd : o.Metadata = some md) (hm : md.lookup "method" = some (.str m)) :
    (m ∉ acl.Methods → (acl.Path = "" ∨ StringEntry md "path") →
        acl.IsClaimAllowed claims (some o) = some Verdict.Abstain) ∧
      (m ∈ acl.Methods →
        acl.IsClaimAllowed claims (some o) =
          AccessListEntry.IsClaimAllowed { acl with Methods := [] } claims (some o)) ∧
      ((AccessListEntry.AddMethod { acl with Methods := [] } caseTable "get").1.Methods =
          ["GET"] ∧
        AccessListEntry.IsClaimAllowed
          (AccessListEntry.AddMethod { acl with Methods := [] } caseTable "get").1 claims
          (some ⟨true, some [("method", .str "get")]⟩) = some Verdict.Abstain) := by
  refine ⟨?_, ?_, ?_, ?_⟩
  · intro hnot hpath
    obtain ⟨p, hp⟩ := AccessListEntry.pathMatches_isSome acl md hpath
    refine AccessListEntry.IsClaimAllowed_abstain_of_match acl claims (some o) false p ?_
      (Or.inl rfl)
    rw [AccessListEntry.matchMethodPath_some acl o md hflag hmd,
      AccessListEntry.methodMatches_str acl md m hne hm, hp]
    simp [hnot]
  · intro hin
    symm
    refine AccessListEntry.IsClaimAllowed_congr acl _ claims (some o) ?_ ?_ ?_ ?_ <;>
      try rfl
    rw [AccessListEntry.matchMethodPath_some acl o md hflag hmd,
      AccessListEntry.matchMethodPath_some _ o md hflag hmd,
      AccessListEntry.methodMatches_str acl md m hne hm,
      AccessListEntry.methodMatches_no_methods _ md rfl]
    simp [hin]
    rfl
  · rfl
  · refine AccessListEntry.IsClaimAllowed_abstain_of_match _ claims _ false true ?_
      (Or.inl rfl)
    rw [AccessListEntry.matchMethodPath_some _ ⟨true, some [("method", .str "get")]⟩
        [("method", .str "get")] rfl rfl,
      AccessListEntry.pathMatches_no_key _ [("method", .str "get")] (by decide)]
    rfl

/-- Scenario C as an instance of C5: a deny rule with values `[*]` and methods
`[GET]` abstains on the request method `DELETE`. -/
theorem C5_method_filter_witness :
    AccessListEntry.IsClaimAllowed
      { Action := "deny", Values := ["*"], Claim := "roles", Methods := ["GET"],
        Path := "" } ⟨["anything"]⟩
      (some ⟨true, some [("method", .str "DELETE")]⟩) = some Verdict.Abstain :=
  (C5_method_filter (fun c => c)
    { Action := "deny", Values := ["*"], Claim := "roles", Methods := ["GET"], Path := "" }
    ⟨["anything"]⟩ ⟨true, some [("method", .str "DELETE")]⟩ [("method", .str "DELETE")]
    "DELETE" (by decide) rfl rfl rfl).1 (by decide) (Or.inl rfl)

/-- C6, as stated, fails: with a string `path` entry that does not contain the
rule's path, a non-string `method` entry makes the call panic on the method
assertion instead of returning Abstain. -/
theorem C6_path_filter_counterexample :
    AccessListEntry.Path
        { Action := "deny", Values := ["*"], Claim := "roles", Methods := ["GET"],
          Path := "/admin" } ≠ "" ∧
      List.lookup "path" [("method", MetaValue.int 7), ("path", MetaValue.str "/public")] =
        some (.str "/public") ∧
      ¬ IsSubstring "/admin" "/public" ∧
      AccessListEntry.IsClaimAllowed
        { Action := "deny", Values := ["*"], Claim := "roles", Methods := ["GET"],
          Path := "/admin" } ⟨["admin"]⟩
        (some ⟨true, some [("method", .int 7), ("path", .str "/public")]⟩) = none ∧
      AccessListEntry.IsClaimAllowed
        { Action := "deny", Values := ["*"], Claim := "roles", Methods := ["GET"],
          Path := "/admin" } ⟨["admin"]⟩
        (some ⟨true, some [("method", .int 7), ("path", .str "/public")]⟩) ≠
        some Verdict.Abstain :=
  ⟨by decide, by decide, fun h => absurd ((Contains_iff _ _).2 h) (by decide), by decide,
    by decide⟩

/-- C6, amended: for a rule with a path, enforcement on and a string `path` entry
`p` in the bag: if the rule's path is not a contiguous substring of `p` and the
rule has no methods or the bag's `method` entry is missing or a string, the
verdict is Abstain whatever the action, the roles and the methods; if the
rule's path occurs anywhere in `p`, the verdict is that of the rule with its
path cleared. -/
theorem C6_path_filter (acl : AccessListEntry) (claims : UserClaims)
    (o : TokenValidatorOptions) (md : List (String × MetaValue)) (p : String)
    (hne : acl.Path ≠ "") (hflag : o.ValidateMethodPath = true)
    (hmd : o.Metadata = some md) (hp : md.lookup "path" = some (.str p)) :
    (¬ IsSubstring acl.Path p → (acl.Methods = [] ∨ StringEntry md "method") →
        acl.IsClaimAllowed claims (some o) = some Verdict.Abstain) ∧
      (IsSubstring acl.Path p →
        acl.IsClaimAllowed claims (some o) =
          AccessListEntry.IsClaimAllowed { acl with Path := "" } claims (some o)) := by
  refine ⟨?_, ?_⟩
  · intro hnot hmeth
    obtain ⟨m, hm⟩ := AccessListEntry.methodMatches_isSome acl md hmeth
    have hc : Contains p acl.Path = false := by
      cases h : Contains p acl.Path with
      | false => rfl
      | true => exact absurd ((Contains_iff _ _).1 h) hnot
    refine AccessListEntry.IsClaimAllowed_abstain_of_match acl claims (some o) m false ?_
      (Or.inr rfl)
    rw [AccessListEntry.matchMethodPath_some acl o md hflag hmd, hm,
      AccessListEntry.pathMatches_str acl md p hne hp, hc]
    rfl
  · intro hin
    symm
    refine AccessListEntry.IsClaimAllowed_congr acl _ claims (some o) ?_ ?_ ?_ ?_ <;>
      try rfl
    rw [AccessListEntry.matchMethodPath_some acl o md hflag hmd,
      AccessListEntry.matchMethodPath_some _ o md hflag hmd,
      AccessListEntry.pathMatches_str acl md p hne hp,
      AccessListEntry.pathMatches_no_path _ md rfl, (Contains_iff _ _).2 hin]
    rfl

/-- An instance of C6: a rule on the path `api` takes the request path
`/v1/api/users`, where `api` is not a prefix, as it would with no path. -/
theorem C6_path_filter_witness :
    IsSubstring "api" "/v1/api/users" ∧
      AccessListEntry.IsClaimAllowed
        { Action := "allow", Values := ["admin"], Claim := "roles", Methods := [],
          Path := "api" } ⟨["admin"]⟩
        (some ⟨true, some [("path", .str "/v1/api/users")]⟩) =
      AccessListEntry.IsClaimAllowed
        { Action := "allow", Values := ["admin"], Claim := "roles", Methods := [],
          Path := "" } ⟨["admin"]⟩
        (some ⟨true, some [("path", .str "/v1/api/users")]⟩) :=
  ⟨⟨"/v1/", "/users", by decide⟩,
    (C6_path_filter
      { Action := "allow", Values := ["admin"], Claim := "roles", Methods := [],
        Path := "api" } ⟨["admin"]⟩ ⟨true, some [("path", .str "/v1/api/users")]⟩
      [("path", .str "/v1/api/users")] "/v1/api/users" (by decide) rfl rfl rfl).2
      ⟨"/v1/", "/users", by decide⟩⟩

/-! ## Empty role sets -/

/-- C7: a claims record with no roles gets Abstain from every rule and under
every options record, wildcard values included. -/
theorem C7_empty_roles_abstain (acl : AccessListEntry) (claims : UserClaims)
    (opts : Option TokenValidatorOptions) (hr : claims.Roles = []) :
    acl.IsClaimAllowed claims opts = some Verdict.Abstain := by
  unfold AccessListEntry.IsClaimAllowed
  by_cases hc : acl.Claim = "roles"
  · rw [if_pos hc, hr]
    rfl
  · rw [if_neg hc]
    rfl

/-- An instance of C7: a deny rule on the wildcard `*` abstains on an empty role
set, even under metadata whose entries are not strings. -/
theorem C7_empty_roles_abstain_witness :
    AccessListEntry.IsClaimAllowed
      { Action := "deny", Values := ["*", "any"], Claim := "roles", Methods := ["GET"],
        Path := "/admin" } ⟨[]⟩
      (some ⟨true, some [("method", .int 7), ("path", .null)]⟩) = some Verdict.Abstain :=
  C7_empty_roles_abstain _ ⟨[]⟩ _ rfl

/-! ## Building and validating a rule -/

theorem addValues_eq (acl : AccessListEntry) (vs : List String) (h : ∀ v ∈ vs, v ≠ "") :
    addValues acl vs = ({ acl with Values := acl.Values ++ vs }, none) := by
  induction vs generalizing acl with
  | nil => simp [addValues]
  | cons v rest ih =>
    have hv : v ≠ "" := h v (List.mem_cons_self _ _)
    have hrest : ∀ w ∈ rest, w ≠ "" := fun w hw => h w (List.mem_cons_of_mem _ hw)
    simp only [addValues, AccessListEntry.AddValue, if_neg hv]
    rw [ih _ hrest]
    simp

theorem buildAllowEntry_eq (vs : List String) (h : ∀ v ∈ vs, v ≠ "") :
    buildAllowEntry vs =
      ({ Action := "allow", Values := vs, Claim := "roles", Methods := [], Path := "" },
        none) := by
  have hs : (NewAccessListEntry.Allow).SetClaim "roles" =
      ({ Action := "allow", Values := [], Claim := "roles", Methods := [], Path := "" },
        none) := by
    decide
  unfold buildAllowEntry
  rw [hs]
  simp only
  rw [addValues_eq _ vs h]
  simp

/-- C8: for a non-empty list `vs` of non-empty strings, the rule built from a new
entry by `Allow`, `SetClaim "roles"` and `AddValue` on each element of `vs` is
built with no error, has the values `vs`, passes `Validate`, and returns Permit
with no options on every claims record holding a role that is in `vs`. -/
theorem C8_built_allow_rule_permits (vs : List String) (hne : vs ≠ [])
    (hvs : ∀ v ∈ vs, v ≠ "") :
    (buildAllowEntry vs).2 = none ∧ (buildAllowEntry vs).1.Values = vs ∧
      (buildAllowEntry vs).1.Validate = none ∧
      ∀ claims : UserClaims, (∃ r ∈ claims.Roles, r ∈ vs) →
        (buildAllowEntry vs).1.IsClaimAllowed claims none = some Verdict.Permit := by
  rw [buildAllowEntry_eq vs hvs]
  refine ⟨rfl, rfl, ?_, ?_⟩
  · cases vs with
    | nil => exact absurd rfl hne
    | cons v rest => rfl
  · rintro claims ⟨r, hr, hrv⟩
    rw [AccessListEntry.IsClaimAllowed_of_match _ claims none true true rfl]
    have hcm : claimMatch
        { Action := "allow", Values := vs, Claim := "roles", Methods := [], Path := "" }
        claims := ⟨rfl, r, hr, r, hrv, Or.inl rfl⟩
    simp [hcm]

/-- Scenario A as an instance of C8: the rule built from `[anonymous, guest]`
permits the roles `[anonymous]`. -/
theorem C8_built_allow_rule_permits_witness :
    (buildAllowEntry ["anonymous", "guest"]).2 = none ∧
      (buildAllowEntry ["anonymous", "guest"]).1.IsClaimAllowed ⟨["anonymous"]⟩ none =
        some Verdict.Permit :=
  ⟨(C8_built_allow_rule_permits ["anonymous", "guest"] (by decide) (by decide)).1,
    (C8_built_allow_rule_permits ["anonymous", "guest"] (by decide) (by decide)).2.2.2
      ⟨["anonymous"]⟩ (by decide)⟩

/-- C9: `Validate` checks in priority order: the empty-action error for an empty
action; else the unsupported-action error carrying the action when it is
neither `allow` nor `deny`; else the empty-claim error for an empty claim; else
the no-values error for an empty value list; else nil.  So it returns nil
exactly when the action is `allow` or `deny`, the claim is non-empty and there
is a value, and it does not depend on the methods or the path. -/
theorem C9_validate_priority_order (acl : AccessListEntry) :
    (acl.Action = "" → acl.Validate = some .ErrEmptyACLAction) ∧
      (acl.Action ≠ "" → acl.Action ≠ "allow" → acl.Action ≠ "deny" →
        acl.Validate = some (.ErrUnsupportedACLAction acl.Action)) ∧
      ((acl.Action = "allow" ∨ acl.Action = "deny") → acl.Claim = "" →
        acl.Validate = some .ErrEmptyACLClaim) ∧
      ((acl.Action = "allow" ∨ acl.Action = "deny") → acl.Claim ≠ "" → acl.Values = [] →
        acl.Validate = some .ErrNoValues) ∧
      ((acl.Action = "allow" ∨ acl.Action = "deny") → acl.Claim ≠ "" → acl.Values ≠ [] →
        acl.Validate = none) ∧
      (acl.Validate = none ↔
        (acl.Action = "allow" ∨ acl.Action = "deny") ∧ acl.Claim ≠ "" ∧ acl.Values ≠ []) ∧
      ∀ (methods : List String) (path : String),
        AccessListEntry.Validate { acl with Methods := methods, Path := path } =
          acl.Validate := by
  have hallow : ("allow" : String) ≠ "" := by decide
  have hdeny : ("deny" : String) ≠ "" := by decide
  have hlen : acl.Values.length = 0 ↔ acl.Values = [] := List.length_eq_zero
  refine ⟨?_, ?_, ?_, ?_, ?_, ?_, ?_⟩
  · intro h
    simp [AccessListEntry.Validate, h]
  · intro h1 h2 h3
    simp [AccessListEntry.Validate, h1, h2, h3]
  · rintro (h | h) hc <;> simp [AccessListEntry.Validate, h, hc]
  · rintro (h | h) hc hv <;> simp [AccessListEntry.Validate, h, hc, hv]
  · rintro (h | h) hc hv <;> simp [AccessListEntry.Validate, h, hc, hv]
  · unfold AccessListEntry.Validate
    constructor
    · intro h
      split_ifs at h with h1 h2 h3 h4
      refine ⟨?_, h3, fun e => h4 (hlen.2 e)⟩
      by_contra hcon
      exact h2 ⟨fun e => hcon (Or.inl e), fun e => hcon (Or.inr e)⟩
    · rintro ⟨h | h, hc, hv⟩ <;> simp [h, hc, hv]
  · intro methods path
    rfl

/-- Instances of C9: an unset action is reported before a missing claim, an
unsupported action before anything else, and a complete rule passes. -/
theorem C9_validate_priority_order_witness :
    AccessListEntry.Validate NewAccessListEntry = some .ErrEmptyACLAction ∧
      AccessListEntry.Validate
        { Action := "permit", Values := [], Claim := "", Methods := [], Path := "" } =
        some (.ErrUnsupportedACLAction "permit") ∧
      AccessListEntry.Validate
        { Action := "deny", Values := [], Claim := "", Methods := [], Path := "" } =
        some .ErrEmptyACLClaim ∧
      AccessListEntry.Validate
        { Action := "deny", Values := [], Claim := "roles", Methods := [], Path := "" } =
        some .ErrNoValues ∧
      AccessListEntry.Validate
        { Action := "deny", Values := ["admin"], Claim := "roles", Methods := ["GET"],
          Path := "/x" } = none :=
  ⟨(C9_validate_priority_order NewAccessListEntry).1 rfl,
    (C9_validate_priority_order _).2.1 (by decide) (by decide) (by decide),
    (C9_validate_priority_order _).2.2.1 (Or.inr rfl) rfl,
    (C9_validate_priority_order _).2.2.2.1 (Or.inr rfl) (by decide) rfl,
    (C9_validate_priority_order _).2.2.2.2.1 (Or.inr rfl) (by decide) (by decide)⟩

/-- C10, as stated, fails: a new entry has no values, yet `Validate` reports the
empty action, not the missing values; likewise an unsupported action and an
empty claim are reported first. -/
theorem C10_no_values_counterexample :
    AccessListEntry.Values NewAccessListEntry = [] ∧
      AccessListEntry.Validate NewAccessListEntry = some .ErrEmptyACLAction ∧
      AccessListEntry.Validate NewAccessListEntry ≠ some .ErrNoValues ∧
      AccessListEntry.Validate
        { Action := "permit", Values := [], Claim := "roles", Methods := [], Path := "" } ≠
        some .ErrNoValues ∧
      AccessListEntry.Validate
        { Action := "allow", Values := [], Claim := "", Methods := [], Path := "" } ≠
        some .ErrNoValues := by
  decide

/-- C10, amended: a rule with no values never passes `Validate`; the error is
the no-values error exactly when the action is `allow` or `deny` and the claim
is non-empty; otherwise it is, in the priority order of `Validate`, the
empty-action error for an unset action, the unsupported-action error carrying
the action for an action that is neither `allow` nor `deny`, and the
empty-claim error for an unset claim. -/
theorem C10_no_values_fails (acl : AccessListEntry) (hv : acl.Values = []) :
    acl.Validate ≠ none ∧
      (acl.Validate = some .ErrNoValues ↔
        (acl.Action = "allow" ∨ acl.Action = "deny") ∧ acl.Claim ≠ "") ∧
      (acl.Action = "" → acl.Validate = some .ErrEmptyACLAction) ∧
      (acl.Action ≠ "" → acl.Action ≠ "allow" → acl.Action ≠ "deny" →
        acl.Validate = some (.ErrUnsupportedACLAction acl.Action)) ∧
      ((acl.Action = "allow" ∨ acl.Action = "deny") → acl.Claim = "" →
        acl.Validate = some .ErrEmptyACLClaim) ∧
      ((acl.Action = "allow" ∨ acl.Action = "deny") → acl.Claim ≠ "" →
        acl.Validate = some .ErrNoValues) := by
  have hallow : ("allow" : String) ≠ "" := by decide
  have hdeny : ("deny" : String) ≠ "" := by decide
  unfold AccessListEntry.Validate
  rw [hv]
  simp only [List.length_nil, if_true]
  refine ⟨?_, ⟨?_, ?_⟩, ?_, ?_, ?_, ?_⟩
  · split_ifs <;> simp
  · intro h
    split_ifs at h with h1 h2 h3
    · exact absurd h (by simp)
    · exact absurd h (by simp)
    · exact absurd h (by simp)
    · refine ⟨?_, h3⟩
      by_contra hcon
      exact h2 ⟨fun e => hcon (Or.inl e), fun e => hcon (Or.inr e)⟩
  · rintro ⟨h | h, hc⟩ <;> simp [h, hc]
  · intro h
    simp [h]
  · intro h1 h2 h3
    simp [h1, h2, h3]
  · rintro (h | h) hc <;> simp [h, hc]
  · rintro (h | h) hc <;> simp [h, hc]

/-- An instance of C10: a deny rule on `roles` with no values fails with the
no-values error. -/
theorem C10_no_values_fails_witness :
    AccessListEntry.Validate
      { Action := "deny", Values := [], Claim := "roles", Methods := [], Path := "" } =
      some .ErrNoValues :=
  (C10_no_values_fails
    { Action := "deny", Values := [], Claim := "roles", Methods := [], Path := "" }
    rfl).2.1.2 ⟨Or.inr rfl, by decide⟩

/-! ## The mutators -/

theorem ToUpper_empty (caseTable : Char → Char) : ToUpper caseTable "" = "" := rfl

theorem mem_httpMethods (s : String) :
    s ∈ httpMethods ↔ s = "GET" ∨ s = "POST" ∨ s = "PUT" ∨ s = "PATCH" ∨ s = "DELETE" := by
  simp [httpMethods]

theorem AddMethod_of_mem (caseTable : Char → Char) (acl : AccessListEntry) (s : String)
    (h : ToUpper caseTable s ∈ httpMethods) :
    acl.AddMethod caseTable s =
      ({ acl with Methods := acl.Methods ++ [ToUpper caseTable s] }, none) := by
  have hs : s ≠ "" := by
    rintro rfl
    rw [ToUpper_empty] at h
    revert h
    decide
  unfold AccessListEntry.AddMethod
  rw [if_neg hs]
  simp only
  rw [if_pos ((mem_httpMethods _).1 h)]

theorem AddMethod_of_not_mem (caseTable : Char → Char) (acl : AccessListEntry) (s : String)
    (hs : s ≠ "") (h : ToUpper caseTable s ∉ httpMethods) :
    acl.AddMethod caseTable s = (acl, some (.ErrUnsupportedMethod (ToUpper caseTable s))) := by
  unfold AccessListEntry.AddMethod
  rw [if_neg hs]
  simp only
  rw [if_neg (fun hm => h ((mem_httpMethods _).2 hm))]

theorem AddMethod_empty (caseTable : Char → Char) (acl : AccessListEntry) :
    acl.AddMethod caseTable "" = (acl, some .ErrEmptyMethod) := rfl

/-- C12: when `SetAction`, `SetClaim`, `AddMethod`, `SetPath`, `AddValue` or
`SetValue` returns an error, the rule is what it was before the call, field by
field. -/
theorem C12_mutators_atomic (caseTable : Char → Char) (acl : AccessListEntry) (s : String)
    (arr : List String) :
    ((acl.SetAction s).2 ≠ none → (acl.SetAction s).1 = acl) ∧
      ((acl.SetClaim s).2 ≠ none → (acl.SetClaim s).1 = acl) ∧
      ((acl.AddMethod caseTable s).2 ≠ none → (acl.AddMethod caseTable s).1 = acl) ∧
      ((acl.SetPath s).2 ≠ none → (acl.SetPath s).1 = acl) ∧
      ((acl.AddValue s).2 ≠ none → (acl.AddValue s).1 = acl) ∧
      ((acl.SetValue arr).2 ≠ none → (acl.SetValue arr).1 = acl) := by
  refine ⟨?_, ?_, ?_, ?_, ?_, ?_⟩
  · unfold AccessListEntry.SetAction
    split_ifs <;> simp
  · unfold AccessListEntry.SetClaim
    split_ifs <;> simp
  · by_cases hs : s = ""
    · rw [hs, AddMethod_empty]
      simp
    · by_cases hm : ToUpper caseTable s ∈ httpMethods
      · rw [AddMethod_of_mem caseTable acl s hm]
        simp
      · rw [AddMethod_of_not_mem caseTable acl s hs hm]
        simp
  · unfold AccessListEntry.SetPath
    split_ifs <;> simp
  · unfold AccessListEntry.AddValue
    split_ifs <;> simp
  · unfold AccessListEntry.SetValue
    split_ifs <;> simp

/-- Instances of C12: refused calls on a complete rule leave it as it was. -/
theorem C12_mutators_atomic_witness :
    (AccessListEntry.SetAction
        { Action := "allow", Values := ["admin"], Claim := "roles", Methods := ["GET"],
          Path := "/api" } "permit").1 =
        { Action := "allow", Values := ["admin"], Claim := "roles", Methods := ["GET"],
          Path := "/api" } ∧
      (AccessListEntry.AddMethod
        { Action := "allow", Values := ["admin"], Claim := "roles", Methods := ["GET"],
          Path := "/api" } (fun c => c) "HEAD").1 =
        { Action := "allow", Values := ["admin"], Claim := "roles", Methods := ["GET"],
          Path := "/api" } ∧
      (AccessListEntry.SetValue
        { Action := "allow", Values := ["admin"], Claim := "roles", Methods := ["GET"],
          Path := "/api" } []).1 =
        { Action := "allow", Values := ["admin"], Claim := "roles", Methods := ["GET"],
          Path := "/api" } :=
  ⟨(C12_mutators_atomic (fun c => c) _ "permit" []).1 (by decide),
    (C12_mutators_atomic (fun c => c) _ "HEAD" []).2.2.1 (by decide),
    (C12_mutators_atomic (fun c => c) _ "" []).2.2.2.2.2 (by decide)⟩

/-! ## The invariant of rules built through the mutators -/

theorem Validate_none (acl : AccessListEntry) (h : acl.Validate = none) :
    (acl.Action = "allow" ∨ acl.Action = "deny") ∧ acl.Claim ≠ "" ∧ acl.Values ≠ [] := by
  unfold AccessListEntry.Validate at h
  split_ifs at h with h1 h2 h3 h4
  refine ⟨?_, h3, fun e => h4 (by simp [e])⟩
  by_contra hcon
  exact h2 ⟨fun e => hcon (Or.inl e), fun e => hcon (Or.inr e)⟩

theorem RuleInv_new : RuleInv NewAccessListEntry := by
  refine ⟨?_, Or.inl rfl, Or.inl rfl⟩
  intro m hm
  exact absurd hm (List.not_mem_nil m)

theorem RuleInv_run (caseTable : Char → Char) (acl : AccessListEntry) (c : Call)
    (h : RuleInv acl) : RuleInv (c.run caseTable acl).1 := by
  obtain ⟨hm, hc, ha⟩ := h
  cases c with
  | Allow => exact ⟨hm, hc, Or.inr (Or.inl rfl)⟩
  | Deny => exact ⟨hm, hc, Or.inr (Or.inr rfl)⟩
  | SetAction s =>
    simp only [Call.run, AccessListEntry.SetAction]
    split_ifs with h1 h2
    · exact ⟨hm, hc, ha⟩
    · exact ⟨hm, hc, ha⟩
    · refine ⟨hm, hc, Or.inr ?_⟩
      by_contra hcon
      exact h2 ⟨fun e => hcon (Or.inl e), fun e => hcon (Or.inr e)⟩
  | SetClaim s =>
    simp only [Call.run, AccessListEntry.SetClaim]
    split_ifs with h1 h2
    · exact ⟨hm, hc, ha⟩
    · exact ⟨hm, hc, ha⟩
    · exact ⟨hm, Or.inr (not_not.1 h2), ha⟩
  | AddMethod s =>
    simp only [Call.run]
    by_cases hs : s = ""
    · rw [hs, AddMethod_empty]
      exact ⟨hm, hc, ha⟩
    · by_cases hu : ToUpper caseTable s ∈ httpMethods
      · rw [AddMethod_of_mem caseTable acl s hu]
        refine ⟨?_, hc, ha⟩
        intro m hmem
        rcases List.mem_append.1 hmem with h1 | h1
        · exact hm m h1
        · rw [List.mem_singleton.1 h1]
          exact hu
      · rw [AddMethod_of_not_mem caseTable acl s hs hu]
        exact ⟨hm, hc, ha⟩
  | SetPath s =>
    simp only [Call.run, AccessListEntry.SetPath]
    split_ifs <;> exact ⟨hm, hc, ha⟩
  | AddValue s =>
    simp only [Call.run, AccessListEntry.AddValue]
    split_ifs <;> exact ⟨hm, hc, ha⟩
  | SetValue arr =>
    simp only [Call.run, AccessListEntry.SetValue]
    split_ifs <;> exact ⟨hm, hc, ha⟩

theorem RuleInv_runCalls (caseTable : Char → Char) (acl : AccessListEntry)
    (calls : List Call) (h : RuleInv acl) : RuleInv (runCalls caseTable acl calls) := by
  induction calls generalizing acl with
  | nil => exact h
  | cons c rest ih => exact ih _ (RuleInv_run caseTable acl c h)

/-! ## The round trip through `GetValues` -/

theorem intercalate_go_data (acc : String) (rest : List String) :
    (String.intercalate.go acc " " rest).data =
      acc.data ++ rest.foldr (fun a r => ' ' :: (a.data ++ r)) [] := by
  induction rest generalizing acc with
  | nil => simp [String.intercalate.go]
  | cons a rest ih =>
    simp only [String.intercalate.go, ih, String.data_append, List.foldr_cons,
      List.append_assoc]
    rfl

theorem splitChars_no_sep (sep : Char) (p rest piece : List Char) (hp : sep ∉ p) :
    splitChars sep (p ++ rest) piece = splitChars sep rest (piece ++ p) := by
  induction p generalizing piece with
  | nil => simp
  | cons c p ih =>
    have hc : c ≠ sep := fun e => hp (e ▸ List.mem_cons_self _ _)
    have hp2 : sep ∉ p := fun e => hp (List.mem_cons_of_mem _ e)
    have hstep : splitChars sep (c :: p ++ rest) piece =
        splitChars sep (p ++ rest) (piece ++ [c]) := by
      simp only [List.cons_append, splitChars, if_neg hc]
      rfl
    rw [hstep, ih _ hp2]
    simp

theorem splitChars_joined (p piece : List Char) (rest : List String) (hp : ' ' ∉ p)
    (hrest : ∀ a ∈ rest, ' ' ∉ a.data) :
    splitChars ' ' (p ++ rest.foldr (fun a r => ' ' :: (a.data ++ r)) []) piece =
      (piece ++ p) :: rest.map String.data := by
  induction rest generalizing p piece with
  | nil =>
    rw [splitChars_no_sep ' ' p _ piece hp]
    simp [splitChars]
  | cons a rest ih =>
    rw [splitChars_no_sep ' ' p _ piece hp]
    simp only [List.foldr_cons, splitChars, if_true, List.map_cons]
    rw [ih a.data [] (hrest a (List.mem_cons_self _ _))
      (fun b hb => hrest b (List.mem_cons_of_mem _ hb))]
    simp

/-- Splitting the string of `GetValues` on the space gives the values back when
there is a value and no value contains a space. -/
theorem SplitOnSpace_GetValues (acl : AccessListEntry) (hne : acl.Values ≠ [])
    (hsp : ∀ v ∈ acl.Values, ' ' ∉ v.data) : SplitOnSpace acl.GetValues = acl.Values := by
  unfold SplitOnSpace AccessListEntry.GetValues
  cases hv : acl.Values with
  | nil => exact absurd hv hne
  | cons a rest =>
    rw [hv] at hsp
    simp only [String.intercalate]
    rw [intercalate_go_data, splitChars_joined a.data [] rest
      (hsp a (List.mem_cons_self _ _)) (fun b hb => hsp b (List.mem_cons_of_mem _ hb))]
    have hmk : ∀ l : List String, (l.map String.data).map String.mk = l := by
      intro l
      induction l with
      | nil => rfl
      | cons x l ih => simp [ih]
    simp only [List.nil_append, List.map_cons, hmk]

/-- C15, as stated, fails: a value holding a space is split in two by the round
trip, so the rebuilt rule permits the role `a` on which the rule with the value
`a b` abstains; and a rule given an empty value by `SetValue` is not rebuilt,
`AddValue` refusing the empty piece. -/
theorem C15_round_trip_counterexample :
    AccessListEntry.GetValues
        { Action := "allow", Values := ["a b"], Claim := "roles", Methods := [], Path := "" } =
        "a b" ∧
      roundTripValues
        { Action := "allow", Values := ["a b"], Claim := "roles", Methods := [], Path := "" } =
        ({ Action := "allow", Values := ["a", "b"], Claim := "roles", Methods := [],
           Path := "" }, none) ∧
      AccessListEntry.IsClaimAllowed
        { Action := "allow", Values := ["a b"], Claim := "roles", Methods := [], Path := "" }
        ⟨["a"]⟩ none = some Verdict.Abstain ∧
      AccessListEntry.IsClaimAllowed
        (roundTripValues
          { Action := "allow", Values := ["a b"], Claim := "roles", Methods := [],
            Path := "" }).1 ⟨["a"]⟩ none = some Verdict.Permit ∧
      (roundTripValues
        (AccessListEntry.SetValue
          { Action := "allow", Values := [], Claim := "roles", Methods := [], Path := "" }
          ["admin", ""]).1).2 = some .ErrEmptyValue := by
  decide

/-- C15, amended: for a rule with at least one value, whose values are all
non-empty and hold no space, splitting the string of `GetValues` on the space
gives the values back, `AddValue` on each piece on a new rule with the same
action and claim succeeds for every piece, the rebuilt rule has the same
values, and it returns the same verdict as the original on every claims record
with no options. -/
theorem C15_round_trip (acl : AccessListEntry) (hne : acl.Values ≠ [])
    (hvs : ∀ v ∈ acl.Values, v ≠ "" ∧ ' ' ∉ v.data) :
    SplitOnSpace acl.GetValues = acl.Values ∧ (roundTripValues acl).2 = none ∧
      (roundTripValues acl).1.Values = acl.Values ∧
      ∀ claims : UserClaims,
        (roundTripValues acl).1.IsClaimAllowed claims none = acl.IsClaimAllowed claims none := by
  have hsplit := SplitOnSpace_GetValues acl hne (fun v hv => (hvs v hv).2)
  have hrt : roundTripValues acl =
      ({ Action := acl.Action, Values := acl.Values, Claim := acl.Claim, Methods := [],
         Path := "" }, none) := by
    unfold roundTripValues
    rw [hsplit, addValues_eq _ acl.Values (fun v hv => (hvs v hv).1)]
    simp
  refine ⟨hsplit, ?_, ?_, ?_⟩
  · rw [hrt]
  · rw [hrt]
  · intro claims
    rw [hrt]
    refine AccessListEntry.IsClaimAllowed_congr acl _ claims none ?_ ?_ ?_ ?_ <;> rfl

/-- An instance of C15: the rule with values `[anonymous, guest]` is rebuilt
from the string `anonymous guest`. -/
theorem C15_round_trip_witness :
    AccessListEntry.GetValues
        { Action := "allow", Values := ["anonymous", "guest"], Claim := "roles",
          Methods := ["GET"], Path := "/api" } = "anonymous guest" ∧
      (roundTripValues
        { Action := "allow", Values := ["anonymous", "guest"], Claim := "roles",
          Methods := ["GET"], Path := "/api" }).1.Values = ["anonymous", "guest"] :=
  ⟨by decide,
    (C15_round_trip
      { Action := "allow", Values := ["anonymous", "guest"], Claim := "roles",
        Methods := ["GET"], Path := "/api" } (by decide) (by decide)).2.2.1⟩

/-! ## Outcomes of the evaluator -/

namespace AccessListEntry

/-- The four outcomes of `IsClaimAllowed` and what each one means. -/
theorem IsClaimAllowed_cases (acl : AccessListEntry) (claims : UserClaims)
    (opts : Option TokenValidatorOptions) :
    (IsClaimAllowed acl claims opts = none ∧ acl.Claim = "roles" ∧ claims.Roles ≠ [] ∧
        matchMethodPath acl opts = none) ∨
      (IsClaimAllowed acl claims opts = some Verdict.Abstain ∧
        (acl.Claim = "roles" → claims.Roles ≠ [] → matchMethodPath acl opts ≠ none)) ∨
      (IsClaimAllowed acl claims opts = some Verdict.Permit ∧ acl.Action = "allow" ∧
        claimMatch acl claims ∧ matchMethodPath acl opts = some (true, true)) ∨
      (IsClaimAllowed acl claims opts = some Verdict.Deny ∧ acl.Action ≠ "allow" ∧
        claimMatch acl claims ∧ matchMethodPath acl opts = some (true, true)) := by
  cases h : matchMethodPath acl opts with
  | none =>
    by_cases hc : acl.Claim = "roles"
    · cases hr : claims.Roles with
      | nil =>
        refine Or.inr (Or.inl ⟨?_, fun _ hne => absurd rfl hne⟩)
        simp [IsClaimAllowed, hc, hr, Verdict.Abstain]
      | cons r rest =>
        refine Or.inl ⟨?_, hc, by simp, rfl⟩
        simp [IsClaimAllowed, hc, hr, h]
    · refine Or.inr (Or.inl ⟨?_, fun e => absurd e hc⟩)
      simp [IsClaimAllowed, hc, Verdict.Abstain]
  | some mp =>
    obtain ⟨m, p⟩ := mp
    rw [IsClaimAllowed_of_match acl claims opts m p h]
    by_cases hcond : claimMatch acl claims ∧ m = true ∧ p = true
    · obtain ⟨hcm, hm, hp⟩ := hcond
      subst hm
      subst hp
      by_cases ha : acl.Action = "allow"
      · refine Or.inr (Or.inr (Or.inl ⟨?_, ha, hcm, rfl⟩))
        simp [hcm, ha]
      · refine Or.inr (Or.inr (Or.inr ⟨?_, ha, hcm, rfl⟩))
        simp [hcm, ha]
    · refine Or.inr (Or.inl ⟨?_, fun _ _ => by simp⟩)
      rw [if_neg hcond]

/-- When the method match and the path match of the specification hold, the
method/path block returns both flags set. -/
theorem matchMethodPath_of_matches (acl : AccessListEntry)
    (opts : Option TokenValidatorOptions) (hm : methodMatch acl opts)
    (hp : pathMatch acl opts) : matchMethodPath acl opts = some (true, true) := by
  cases he : enforced opts with
  | none => exact matchMethodPath_not_enforced acl opts he
  | some md =>
    have h1 : methodMatches acl md = some true := by
      rcases hm md he with h | h | ⟨x, hx, hl⟩
      · exact methodMatches_no_methods acl md h
      · exact methodMatches_no_key acl md h
      · rw [methodMatches_str acl md x (List.ne_nil_of_mem hx) hl]
        simp [hx]
    have h2 : pathMatches acl md = some true := by
      rcases hp md he with h | h | ⟨q, hl, hq⟩
      · exact pathMatches_no_path acl md h
      · exact pathMatches_no_key acl md h
      · by_cases hP : acl.Path = ""
        · exact pathMatches_no_path acl md hP
        · rw [pathMatches_str acl md q hP hl, (Contains_iff _ _).2 hq]
    rw [matchMethodPath_enforced acl opts md he, h1, h2]
    rfl

theorem methodMatches_eq_none_iff (acl : AccessListEntry) (md : List (String × MetaValue)) :
    methodMatches acl md = none ↔ acl.Methods ≠ [] ∧ NonStringEntry md "method" := by
  constructor
  · intro h
    by_cases hM : acl.Methods = []
    · rw [methodMatches_no_methods acl md hM] at h
      exact absurd h (by simp)
    · refine ⟨hM, ?_⟩
      cases hl : md.lookup "method" with
      | none =>
        rw [methodMatches_no_key acl md hl] at h
        exact absurd h (by simp)
      | some v =>
        refine ⟨v, hl, ?_⟩
        rintro s rfl
        rw [methodMatches_str acl md s hM hl] at h
        exact absurd h (by simp)
  · rintro ⟨hM, v, hl, hv⟩
    unfold methodMatches
    cases hMs : acl.Methods with
    | nil => exact absurd hMs hM
    | cons x rest =>
      simp only [List.length_cons, hl]
      rw [if_neg (by omega)]
      exact methodsLoop_not_str v hv x rest

theorem pathMatches_eq_none_iff (acl : AccessListEntry) (md : List (String × MetaValue)) :
    pathMatches acl md = none ↔ acl.Path ≠ "" ∧ NonStringEntry md "path" := by
  constructor
  · intro h
    by_cases hP : acl.Path = ""
    · rw [pathMatches_no_path acl md hP] at h
      exact absurd h (by simp)
    · refine ⟨hP, ?_⟩
      cases hl : md.lookup "path" with
      | none =>
        rw [pathMatches_no_key acl md hl] at h
        exact absurd h (by simp)
      | some v =>
        refine ⟨v, hl, ?_⟩
        rintro s rfl
        rw [pathMatches_str acl md s hP hl] at h
        exact absurd h (by simp)
  · rintro ⟨hP, v, hl, hv⟩
    unfold pathMatches
    rw [if_neg hP, hl]
    cases v with
    | str s => exact absurd rfl (hv s)
    | int n => rfl
    | bool b => rfl
    | null => rfl

/-- The method/path block panics exactly when filtering is enforced and a type
assertion is reached on a value that is not a string. -/
theorem matchMethodPath_eq_none_iff (acl : AccessListEntry)
    (opts : Option TokenValidatorOptions) :
    matchMethodPath acl opts = none ↔ ∃ md, enforced opts = some md ∧ assertionFails acl md := by
  cases he : enforced opts with
  | none =>
    rw [matchMethodPath_not_enforced acl opts he]
    simp
  | some md =>
    rw [matchMethodPath_enforced acl opts md he]
    simp only [Option.some.injEq, exists_eq_left', assertionFails,
      ← methodMatches_eq_none_iff, ← pathMatches_eq_none_iff]
    cases methodMatches acl md <;> cases pathMatches acl md <;> simp

/-- The verdict depends on the values and the roles only through the emptiness
of the roles and the flag computed by the role loop. -/
theorem IsClaimAllowed_congr_roles (acl : AccessListEntry) (values2 : List String)
    (claims claims2 : UserClaims) (opts : Option TokenValidatorOptions)
    (hr : claims2.Roles = [] ↔ claims.Roles = [])
    (hl : rolesLoop values2 claims2.Roles false = rolesLoop acl.Values claims.Roles false) :
    IsClaimAllowed { acl with Values := values2 } claims2 opts =
      IsClaimAllowed acl claims opts := by
  have hmp : matchMethodPath { acl with Values := values2 } opts = matchMethodPath acl opts :=
    rfl
  have hlen : claims2.Roles.length = 0 ↔ claims.Roles.length = 0 := by
    rw [List.length_eq_zero, List.length_eq_zero]
    exact hr
  unfold IsClaimAllowed
  simp only [hmp, hl]
  by_cases h0 : claims.Roles.length = 0
  · rw [if_pos h0, if_pos (hlen.2 h0)]
  · rw [if_neg h0, if_neg (fun e => h0 (hlen.1 e))]

/-- The verdict when the claim matches and the method/path block sets both
flags. -/
theorem IsClaimAllowed_of_claimMatch (acl : AccessListEntry) (claims : UserClaims)
    (opts : Option TokenValidatorOptions) (hc : claimMatch acl claims)
    (hmp : matchMethodPath acl opts = some (true, true)) :
    IsClaimAllowed acl claims opts =
      some (if acl.Action = "allow" then Verdict.Permit else Verdict.Deny) := by
  rw [IsClaimAllowed_of_match acl claims opts true true hmp]
  simp [hc]

end AccessListEntry

/-! ## Order of values and roles -/

/-- C16: the verdict is unchanged when the rule's values are replaced by a list
with the same elements (a permutation, or duplicates added or removed) and
when the roles of the claims are replaced by a permutation of them; the role
loop with its early exit computes the existence of a matching role and value. -/
theorem C16_order_independence (acl : AccessListEntry) (claims : UserClaims)
    (opts : Option TokenValidatorOptions) :
    (∀ values2 : List String, (∀ v, v ∈ values2 ↔ v ∈ acl.Values) →
        AccessListEntry.IsClaimAllowed { acl with Values := values2 } claims opts =
          acl.IsClaimAllowed claims opts) ∧
      (∀ values2 : List String, values2.Perm acl.Values →
        AccessListEntry.IsClaimAllowed { acl with Values := values2 } claims opts =
          acl.IsClaimAllowed claims opts) ∧
      (∀ roles2 : List String, roles2.Perm claims.Roles →
        acl.IsClaimAllowed ⟨roles2⟩ opts = acl.IsClaimAllowed claims opts) ∧
      (AccessListEntry.rolesLoop acl.Values claims.Roles false = true ↔
        ∃ role ∈ claims.Roles, ∃ value ∈ acl.Values,
          value = role ∨ value = "*" ∨ value = "any") := by
  have hvals : ∀ values2 : List String, (∀ v, v ∈ values2 ↔ v ∈ acl.Values) →
      AccessListEntry.IsClaimAllowed { acl with Values := values2 } claims opts =
        acl.IsClaimAllowed claims opts := by
    intro values2 hmem
    apply AccessListEntry.IsClaimAllowed_congr_roles acl values2 claims claims opts Iff.rfl
    rw [Bool.eq_iff_iff, AccessListEntry.rolesLoop_false, AccessListEntry.rolesLoop_false]
    constructor
    · rintro ⟨r, hr, v, hv, h⟩
      exact ⟨r, hr, v, (hmem v).1 hv, h⟩
    · rintro ⟨r, hr, v, hv, h⟩
      exact ⟨r, hr, v, (hmem v).2 hv, h⟩
  refine ⟨hvals, fun values2 hp => hvals values2 (fun v => hp.mem_iff), ?_,
    AccessListEntry.rolesLoop_false _ _⟩
  intro roles2 hp
  have h := AccessListEntry.IsClaimAllowed_congr_roles acl acl.Values claims ⟨roles2⟩ opts
    (by
      constructor
      · intro e
        exact List.Perm.eq_nil (e ▸ hp.symm)
      · intro e
        exact List.Perm.eq_nil (e ▸ hp))
    (by
      rw [Bool.eq_iff_iff, AccessListEntry.rolesLoop_false, AccessListEntry.rolesLoop_false]
      constructor
      · rintro ⟨r, hr, rest⟩
        exact ⟨r, hp.mem_iff.1 hr, rest⟩
      · rintro ⟨r, hr, rest⟩
        exact ⟨r, hp.mem_iff.2 hr, rest⟩)
  exact h

/-- An instance of C16: reversing the values and repeating one of them, or
reversing the roles, leaves the verdict as it was. -/
theorem C16_order_independence_witness :
    AccessListEntry.IsClaimAllowed
        { Action := "allow", Values := ["guest", "admin", "guest"], Claim := "roles",
          Methods := [], Path := "" } ⟨["editor", "admin"]⟩ none =
        AccessListEntry.IsClaimAllowed
          { Action := "allow", Values := ["admin", "guest"], Claim := "roles",
            Methods := [], Path := "" } ⟨["editor", "admin"]⟩ none ∧
      AccessListEntry.IsClaimAllowed
        { Action := "allow", Values := ["admin", "guest"], Claim := "roles",
          Methods := [], Path := "" } ⟨["admin", "editor"]⟩ none =
        AccessListEntry.IsClaimAllowed
          { Action := "allow", Values := ["admin", "guest"], Claim := "roles",
            Methods := [], Path := "" } ⟨["editor", "admin"]⟩ none :=
  ⟨(C16_order_independence
      { Action := "allow", Values := ["admin", "guest"], Claim := "roles",
        Methods := [], Path := "" } ⟨["editor", "admin"]⟩ none).1
      ["guest", "admin", "guest"]
      (fun v => by simp only [List.mem_cons, List.mem_singleton, List.not_mem_nil]; tauto),
    (C16_order_independence
      { Action := "allow", Values := ["admin", "guest"], Claim := "roles",
        Methods := [], Path := "" } ⟨["editor", "admin"]⟩ none).2.2.1
      ["admin", "editor"] (List.Perm.swap _ _ _)⟩

/-! ## Failure of the evaluation -/

/-- C17, as stated, fails: with enforcement on and a `method` entry that is not a
string, the evaluation of a rule with methods panics on the type assertion and
returns no verdict. -/
theorem C17_evaluation_counterexample :
    AccessListEntry.IsClaimAllowed
        { Action := "allow", Values := ["admin"], Claim := "roles", Methods := ["GET"],
          Path := "" } ⟨["admin"]⟩ (some ⟨true, some [("method", .int 7)]⟩) = none ∧
      ¬ ∃ v, AccessListEntry.IsClaimAllowed
        { Action := "allow", Values := ["admin"], Claim := "roles", Methods := ["GET"],
          Path := "" } ⟨["admin"]⟩ (some ⟨true, some [("method", .int 7)]⟩) = some v := by
  refine ⟨by decide, ?_⟩
  rintro ⟨v, hv⟩
  revert hv
  rw [show AccessListEntry.IsClaimAllowed
        { Action := "allow", Values := ["admin"], Claim := "roles", Methods := ["GET"],
          Path := "" } ⟨["admin"]⟩ (some ⟨true, some [("method", .int 7)]⟩) = none
      from by decide]
  simp

/-- C17, amended: for every rule, claims record and options record whose `method`
and `path` entries, when present under enforcement, are strings, `IsClaimAllowed`
returns one of the verdicts Permit, Deny and Abstain; whatever the options, a
returned verdict is one of these three, and the call fails exactly when the
claim is `roles`, there is a role, filtering is enforced, and a type assertion
is reached on an entry that is not a string. -/
theorem C17_evaluation_returns (acl : AccessListEntry) (claims : UserClaims)
    (opts : Option TokenValidatorOptions) :
    (StringValued opts →
        ∃ v, acl.IsClaimAllowed claims opts = some v ∧
          (v = Verdict.Permit ∨ v = Verdict.Deny ∨ v = Verdict.Abstain)) ∧
      (∀ v, acl.IsClaimAllowed claims opts = some v →
        v = Verdict.Permit ∨ v = Verdict.Deny ∨ v = Verdict.Abstain) ∧
      (acl.IsClaimAllowed claims opts = none ↔
        acl.Claim = "roles" ∧ claims.Roles ≠ [] ∧
          ∃ md, enforced opts = some md ∧ assertionFails acl md) := by
  have hthree : ∀ v, acl.IsClaimAllowed claims opts = some v →
      v = Verdict.Permit ∨ v = Verdict.Deny ∨ v = Verdict.Abstain := by
    intro v hv
    rcases AccessListEntry.IsClaimAllowed_cases acl claims opts with
      ⟨h, _⟩ | ⟨h, _⟩ | ⟨h, _⟩ | ⟨h, _⟩
    · rw [h] at hv
      exact absurd hv (by simp)
    · rw [h, Option.some.injEq] at hv
      exact Or.inr (Or.inr hv.symm)
    · rw [h, Option.some.injEq] at hv
      exact Or.inl hv.symm
    · rw [h, Option.some.injEq] at hv
      exact Or.inr (Or.inl hv.symm)
  refine ⟨?_, hthree, ?_⟩
  · intro hs
    obtain ⟨m, p, h, _, _⟩ := AccessListEntry.matchMethodPath_spec acl opts hs
    have hv := AccessListEntry.IsClaimAllowed_of_match acl claims opts m p h
    exact ⟨_, hv, hthree _ hv⟩
  · rw [← AccessListEntry.matchMethodPath_eq_none_iff]
    constructor
    · intro hn
      rcases AccessListEntry.IsClaimAllowed_cases acl claims opts with
        ⟨_, h1, h2, h3⟩ | ⟨h, _⟩ | ⟨h, _⟩ | ⟨h, _⟩
      · exact ⟨h1, h2, h3⟩
      · rw [h] at hn
        exact absurd hn (by simp)
      · rw [h] at hn
        exact absurd hn (by simp)
      · rw [h] at hn
        exact absurd hn (by simp)
    · rintro ⟨h1, h2, h3⟩
      rcases AccessListEntry.IsClaimAllowed_cases acl claims opts with
        ⟨h, _⟩ | ⟨_, h⟩ | ⟨_, _, _, h⟩ | ⟨_, _, _, h⟩
      · exact h
      · exact absurd h3 (h h1 h2)
      · rw [h3] at h
        exact absurd h (by simp)
      · rw [h3] at h
        exact absurd h (by simp)

/-- An instance of C17: with a string `method` entry the evaluation returns a
verdict. -/
theorem C17_evaluation_returns_witness :
    ∃ v, AccessListEntry.IsClaimAllowed
        { Action := "allow", Values := ["admin"], Claim := "roles", Methods := ["GET"],
          Path := "" } ⟨["admin"]⟩ (some ⟨true, some [("method", .str "PUT")]⟩) = some v ∧
      (v = Verdict.Permit ∨ v = Verdict.Deny ∨ v = Verdict.Abstain) :=
  (C17_evaluation_returns
    { Action := "allow", Values := ["admin"], Claim := "roles", Methods := ["GET"],
      Path := "" } ⟨["admin"]⟩ (some ⟨true, some [("method", .str "PUT")]⟩)).1
    (by
      intro md hmd
      simp only [enforced, if_true, Option.some.injEq] at hmd
      subst hmd
      constructor
      · intro v hv
        exact ⟨"PUT", by simpa [List.lookup] using hv.symm⟩
      · intro v hv
        simp [List.lookup] at hv)

/-! ## Claim kinds and actions -/

/-- C18: a rule whose claim is any string other than `roles`, the empty string
included, returns Abstain on every claims record and every options record,
whatever its action and values, also when `Validate` accepts it. -/
theorem C18_other_claim_abstains (acl : AccessListEntry) (claims : UserClaims)
    (opts : Option TokenValidatorOptions) (hc : acl.Claim ≠ "roles") :
    acl.IsClaimAllowed claims opts = some Verdict.Abstain := by
  unfold AccessListEntry.IsClaimAllowed
  rw [if_neg hc]
  rfl

/-- An instance of C18: `Validate` accepts a rule on the claim `groups`, and the
rule abstains although its value is the wildcard. -/
theorem C18_other_claim_abstains_witness :
    AccessListEntry.Validate
        { Action := "allow", Values := ["*"], Claim := "groups", Methods := [],
          Path := "" } = none ∧
      AccessListEntry.IsClaimAllowed
        { Action := "allow", Values := ["*"], Claim := "groups", Methods := [],
          Path := "" } ⟨["admin"]⟩ none = some Verdict.Abstain :=
  ⟨by decide, C18_other_claim_abstains _ ⟨["admin"]⟩ none (by decide)⟩

/-- C19: a rule whose action is any string other than `allow` (`deny`, the empty
string, or an unrecognised value) returns Deny whenever the claim, method and
path matches all hold; Permit is returned only when the action is `allow`. -/
theorem C19_deny_unless_allow (acl : AccessListEntry) (claims : UserClaims)
    (opts : Option TokenValidatorOptions) :
    (acl.Action ≠ "allow" →
        claimMatch acl claims ∧ methodMatch acl opts ∧ pathMatch acl opts →
        acl.IsClaimAllowed claims opts = some Verdict.Deny) ∧
      (acl.IsClaimAllowed claims opts = some Verdict.Permit → acl.Action = "allow") := by
  refine ⟨?_, ?_⟩
  · rintro ha ⟨hc, hm, hp⟩
    rw [AccessListEntry.IsClaimAllowed_of_claimMatch acl claims opts hc
      (AccessListEntry.matchMethodPath_of_matches acl opts hm hp), if_neg ha]
  · intro hperm
    rcases AccessListEntry.IsClaimAllowed_cases acl claims opts with
      ⟨h, _⟩ | ⟨h, _⟩ | ⟨_, h, _⟩ | ⟨h, _⟩
    · rw [h] at hperm
      exact absurd hperm (by simp)
    · rw [h] at hperm
      exact absurd hperm (by simp [Verdict.Abstain, Verdict.Permit])
    · exact h
    · rw [h] at hperm
      exact absurd hperm (by simp [Verdict.Deny, Verdict.Permit])

/-- An instance of C19: a new entry given a claim and a value but no action
denies a matching request. -/
theorem C19_deny_unless_allow_witness :
    AccessListEntry.IsClaimAllowed
      { Action := "", Values := ["admin"], Claim := "roles", Methods := [], Path := "" }
      ⟨["admin"]⟩ none = some Verdict.Deny :=
  (C19_deny_unless_allow
    { Action := "", Values := ["admin"], Claim := "roles", Methods := [], Path := "" }
    ⟨["admin"]⟩ none).1 (by decide)
    ⟨by decide, fun md h => by simp [enforced] at h, fun md h => by simp [enforced] at h⟩

/-! ## Monotonicity of matching -/

theorem claimMatch_add_value (acl : AccessListEntry) (claims : UserClaims) (v : String)
    (h : claimMatch acl claims) :
    claimMatch { acl with Values := acl.Values ++ [v] } claims := by
  obtain ⟨hc, r, hr, w, hw, hm⟩ := h
  exact ⟨hc, r, hr, w, List.mem_append_left _ hw, hm⟩

theorem claimMatch_add_role (acl : AccessListEntry) (claims : UserClaims) (role : String)
    (h : claimMatch acl claims) : claimMatch acl ⟨claims.Roles ++ [role]⟩ := by
  obtain ⟨hc, r, hr, w, hw, hm⟩ := h
  exact ⟨hc, r, List.mem_append_left _ hr, w, hw, hm⟩

theorem AddValue_of_ne (acl : AccessListEntry) (v : String) (hv : v ≠ "") :
    acl.AddValue v = ({ acl with Values := acl.Values ++ [v] }, none) := by
  unfold AccessListEntry.AddValue
  rw [if_neg hv]

/-! ## Lemmas on slices in memory -/

theorem Slice.elems_length (h : Heap) (s : Slice) : (s.elems h).length = s.len := by
  simp [Slice.elems]

theorem Slice.elems_congr (h h2 : Heap) (s : Slice)
    (hc : ∀ i, i < s.len → h2.cell (s.ptr + i) = h.cell (s.ptr + i)) :
    s.elems h2 = s.elems h := by
  unfold Slice.elems
  apply List.map_congr_left
  intro i hi
  exact hc i (List.mem_range.1 hi)

theorem Slice.Apart.symm {a b : Slice} (h : a.Apart b) : b.Apart a := by
  unfold Slice.Apart at *
  omega

/-- After `append` the slice returned holds the old elements followed by the
new one, whatever else lies in memory. -/
theorem goAppend_elems (slack : Nat → Nat → Nat) (h : Heap) (s : Slice) (x : String) :
    (goAppend slack h s x).2.elems (goAppend slack h s x).1 = s.elems h ++ [x] := by
  unfold goAppend
  split_ifs with hlt
  · simp only [Slice.elems, List.range_succ, List.map_append, List.map_cons, List.map_nil,
      if_true]
    congr 1
    apply List.map_congr_left
    intro i hi
    have hi2 : i < s.len := List.mem_range.1 hi
    have hne : s.ptr + i ≠ s.ptr + s.len := by omega
    simp [hne]
  · simp only [Slice.elems, List.range_succ, List.map_append, List.map_cons, List.map_nil]
    congr 1
    · apply List.map_congr_left
      intro i hi
      have hi2 : i < s.len := List.mem_range.1 hi
      have h1 : h.next ≤ h.next + i ∧
          h.next + i < h.next + (s.len + 1 + slack s.cap (s.len + 1)) := by omega
      have h2 : h.next + i < h.next + s.len := by omega
      simp [h1, h2]
    · have h1 : h.next ≤ h.next + s.len ∧
          h.next + s.len < h.next + (s.len + 1 + slack s.cap (s.len + 1)) := by omega
      simp [h1]

/-- Go `append` leaves the elements of a slice in memory as they were when the two
slices share no array. -/
theorem goAppend_frame (slack : Nat → Nat → Nat) (h : Heap) (s t : Slice) (x : String)
    (ht : t.Allocated h) (hap : s.Apart t) :
    t.elems (goAppend slack h s x).1 = t.elems h := by
  obtain ⟨ht1, ht2⟩ := ht
  apply Slice.elems_congr
  intro i hi
  unfold goAppend
  split_ifs with hlt
  · have hne : t.ptr + i ≠ s.ptr + s.len := by
      unfold Slice.Apart at hap
      omega
    simp [hne]
  · have hlow : ¬ (h.next ≤ t.ptr + i ∧
        t.ptr + i < h.next + (s.len + 1 + slack s.cap (s.len + 1))) := by omega
    simp only [hlow, if_false]

theorem goAppend_allocated (slack : Nat → Nat → Nat) (h : Heap) (s : Slice) (x : String)
    (hs : s.Allocated h) : (goAppend slack h s x).2.Allocated (goAppend slack h s x).1 := by
  obtain ⟨hs1, hs2⟩ := hs
  unfold goAppend
  split_ifs with hlt
  · exact ⟨by simp only; omega, by simp only; omega⟩
  · exact ⟨by simp only; omega, by simp only; omega⟩

theorem goAppend_allocated_other (slack : Nat → Nat → Nat) (h : Heap) (s t : Slice)
    (x : String) (ht : t.Allocated h) : t.Allocated (goAppend slack h s x).1 := by
  obtain ⟨ht1, ht2⟩ := ht
  unfold goAppend
  split_ifs with hlt
  · exact ⟨ht1, ht2⟩
  · exact ⟨ht1, by simp only; omega⟩

theorem goAppend_apart (slack : Nat → Nat → Nat) (h : Heap) (s t : Slice) (x : String)
    (ht : t.Allocated h) (hap : s.Apart t) : (goAppend slack h s x).2.Apart t := by
  obtain ⟨ht1, ht2⟩ := ht
  unfold goAppend
  split_ifs with hlt
  · unfold Slice.Apart at *
    simp only
    omega
  · unfold Slice.Apart
    simp only
    omega

/-! ## The mutators in memory -/

theorem memAddValue_ne (slack : Nat → Nat → Nat) (st : MemState) (s : String) (hs : s ≠ "") :
    Entry.AddValue slack st s =
      ({ heap := (goAppend slack st.heap st.entry.Values s).1,
         entry := { st.entry with Values := (goAppend slack st.heap st.entry.Values s).2 } },
        none) := by
  unfold Entry.AddValue
  rw [if_neg hs]

theorem memAddValue_empty (slack : Nat → Nat → Nat) (st : MemState) :
    Entry.AddValue slack st "" = (st, some .ErrEmptyValue) := rfl

theorem memAddValue_values (slack : Nat → Nat → Nat) (st : MemState) (s : String)
    (hs : s ≠ "") : (Entry.AddValue slack st s).1.view.Values = st.view.Values ++ [s] := by
  rw [memAddValue_ne slack st s hs]
  exact goAppend_elems slack st.heap st.entry.Values s

theorem memAddValue_methods (slack : Nat → Nat → Nat) (st : MemState) (s : String)
    (hsep : Separate st) : (Entry.AddValue slack st s).1.view.Methods = st.view.Methods := by
  by_cases hs : s = ""
  · rw [hs, memAddValue_empty]
  · rw [memAddValue_ne slack st s hs]
    exact goAppend_frame slack st.heap st.entry.Values st.entry.Methods s hsep.2.1 hsep.2.2

theorem memAddValue_strings (slack : Nat → Nat → Nat) (st : MemState) (s : String) :
    (Entry.AddValue slack st s).1.view.Action = st.view.Action ∧
      (Entry.AddValue slack st s).1.view.Claim = st.view.Claim ∧
      (Entry.AddValue slack st s).1.view.Path = st.view.Path := by
  by_cases hs : s = ""
  · rw [hs, memAddValue_empty]
    exact ⟨rfl, rfl, rfl⟩
  · rw [memAddValue_ne slack st s hs]
    exact ⟨rfl, rfl, rfl⟩

theorem memAddValue_separate (slack : Nat → Nat → Nat) (st : MemState) (s : String)
    (hsep : Separate st) : Separate (Entry.AddValue slack st s).1 := by
  by_cases hs : s = ""
  · rw [hs, memAddValue_empty]
    exact hsep
  · rw [memAddValue_ne slack st s hs]
    exact ⟨goAppend_allocated slack st.heap st.entry.Values s hsep.1,
      goAppend_allocated_other slack st.heap st.entry.Values st.entry.Methods s hsep.2.1,
      goAppend_apart slack st.heap st.entry.Values st.entry.Methods s hsep.2.1 hsep.2.2⟩

theorem memAddMethod_empty (caseTable : Char → Char) (slack : Nat → Nat → Nat)
    (st : MemState) : Entry.AddMethod caseTable slack st "" = (st, some .ErrEmptyMethod) :=
  rfl

theorem memAddMethod_mem (caseTable : Char → Char) (slack : Nat → Nat → Nat) (st : MemState)
    (s : String) (h : ToUpper caseTable s ∈ httpMethods) :
    Entry.AddMethod caseTable slack st s =
      ({ heap := (goAppend slack st.heap st.entry.Methods (ToUpper caseTable s)).1,
         entry := { st.entry with
           Methods := (goAppend slack st.heap st.entry.Methods (ToUpper caseTable s)).2 } },
        none) := by
  have hs : s ≠ "" := by
    rintro rfl
    rw [ToUpper_empty] at h
    revert h
    decide
  unfold Entry.AddMethod
  rw [if_neg hs]
  simp only
  rw [if_pos ((mem_httpMethods _).1 h)]

theorem memAddMethod_not_mem (caseTable : Char → Char) (slack : Nat → Nat → Nat)
    (st : MemState) (s : String) (hs : s ≠ "") (h : ToUpper caseTable s ∉ httpMethods) :
    Entry.AddMethod caseTable slack st s =
      (st, some (.ErrUnsupportedMethod (ToUpper caseTable s))) := by
  unfold Entry.AddMethod
  rw [if_neg hs]
  simp only
  rw [if_neg (fun hm => h ((mem_httpMethods _).2 hm))]

theorem memAddMethod_values (caseTable : Char → Char) (slack : Nat → Nat → Nat)
    (st : MemState) (s : String) (hsep : Separate st) :
    (Entry.AddMethod caseTable slack st s).1.view.Values = st.view.Values := by
  by_cases hs : s = ""
  · rw [hs, memAddMethod_empty]
  · by_cases hm : ToUpper caseTable s ∈ httpMethods
    · rw [memAddMethod_mem caseTable slack st s hm]
      exact goAppend_frame slack st.heap st.entry.Methods st.entry.Values _ hsep.1
        hsep.2.2.symm
    · rw [memAddMethod_not_mem caseTable slack st s hs hm]

theorem memAddMethod_separate (caseTable : Char → Char) (slack : Nat → Nat → Nat)
    (st : MemState) (s : String) (hsep : Separate st) :
    Separate (Entry.AddMethod caseTable slack st s).1 := by
  by_cases hs : s = ""
  · rw [hs, memAddMethod_empty]
    exact hsep
  · by_cases hm : ToUpper caseTable s ∈ httpMethods
    · rw [memAddMethod_mem caseTable slack st s hm]
      exact ⟨goAppend_allocated_other slack st.heap st.entry.Methods st.entry.Values _ hsep.1,
        goAppend_allocated slack st.heap st.entry.Methods _ hsep.2.1,
        (goAppend_apart slack st.heap st.entry.Methods st.entry.Values _ hsep.1
          hsep.2.2.symm).symm⟩
    · rw [memAddMethod_not_mem caseTable slack st s hs hm]
      exact hsep

/-- C11, as stated, fails: on the entry whose values were set to `e.Methods[:4]`
after three calls of `AddMethod`, a fourth `AddMethod` appends in place, in the
array that the values share, and the last value changes from the empty string
to `DELETE`. -/
theorem C11_add_method_counterexample :
    (runMemCalls (fun c => c) goSlack NewState
        [.AddMethod "get", .AddMethod "post", .AddMethod "put"]).entry.Methods.upTo 4 =
        { ptr := 3, len := 4, cap := 4 } ∧
      (runMemCalls (fun c => c) goSlack NewState
        [.AddMethod "get", .AddMethod "post", .AddMethod "put",
          .SetValue { ptr := 3, len := 4, cap := 4 }]).view.Values =
        ["GET", "POST", "PUT", ""] ∧
      (Entry.AddMethod (fun c => c) goSlack
        (runMemCalls (fun c => c) goSlack NewState
          [.AddMethod "get", .AddMethod "post", .AddMethod "put",
            .SetValue { ptr := 3, len := 4, cap := 4 }]) "delete").2 = none ∧
      (Entry.AddMethod (fun c => c) goSlack
        (runMemCalls (fun c => c) goSlack NewState
          [.AddMethod "get", .AddMethod "post", .AddMethod "put",
            .SetValue { ptr := 3, len := 4, cap := 4 }]) "delete").1.view.Values =
        ["GET", "POST", "PUT", "DELETE"] := by
  decide

/-- C11, amended: `AddMethod s` succeeds exactly when the upper-cased `s` is one
of `GET`, `POST`, `PUT`, `PATCH`, `DELETE`; on success the methods become the
previous methods with the upper-cased `s` appended at the end (the length
grows by one, duplicates are kept), the action, the claim and the path do not
change, and the values do not change when the values and the methods share no
backing array; on failure the error is the empty-method error for the empty
string and otherwise the unsupported-method error carrying the upper-cased
`s`. -/
theorem C11_add_method (caseTable : Char → Char) (slack : Nat → Nat → Nat) (st : MemState)
    (s : String) :
    ((Entry.AddMethod caseTable slack st s).2 = none ↔ ToUpper caseTable s ∈ httpMethods) ∧
      (ToUpper caseTable s ∈ httpMethods →
        (Entry.AddMethod caseTable slack st s).1.view.Methods =
            st.view.Methods ++ [ToUpper caseTable s] ∧
          (Entry.AddMethod caseTable slack st s).1.view.Methods.length =
            st.view.Methods.length + 1 ∧
          (Entry.AddMethod caseTable slack st s).1.view.Action = st.view.Action ∧
          (Entry.AddMethod caseTable slack st s).1.view.Claim = st.view.Claim ∧
          (Entry.AddMethod caseTable slack st s).1.view.Path = st.view.Path ∧
          (Separate st →
            (Entry.AddMethod caseTable slack st s).1.view.Values = st.view.Values)) ∧
      (s = "" → (Entry.AddMethod caseTable slack st s).2 = some .ErrEmptyMethod) ∧
      (s ≠ "" → ToUpper caseTable s ∉ httpMethods →
        (Entry.AddMethod caseTable slack st s).2 =
          some (.ErrUnsupportedMethod (ToUpper caseTable s))) := by
  refine ⟨⟨?_, ?_⟩, ?_, ?_, ?_⟩
  · intro h
    by_contra hm
    by_cases hs : s = ""
    · rw [hs, memAddMethod_empty] at h
      exact absurd h (by simp)
    · rw [memAddMethod_not_mem caseTable slack st s hs hm] at h
      exact absurd h (by simp)
  · intro hm
    rw [memAddMethod_mem caseTable slack st s hm]
  · intro hm
    have hM : (Entry.AddMethod caseTable slack st s).1.view.Methods =
        st.view.Methods ++ [ToUpper caseTable s] := by
      rw [memAddMethod_mem caseTable slack st s hm]
      exact goAppend_elems slack st.heap st.entry.Methods _
    refine ⟨hM, by rw [hM]; simp, ?_, ?_, ?_, memAddMethod_values caseTable slack st s⟩
    · rw [memAddMethod_mem caseTable slack st s hm]
      rfl
    · rw [memAddMethod_mem caseTable slack st s hm]
      rfl
    · rw [memAddMethod_mem caseTable slack st s hm]
      rfl
  · rintro rfl
    rfl
  · intro hs hm
    rw [memAddMethod_not_mem caseTable slack st s hs hm]

/-- Instances of C11: on an entry built by `AddValue` and `AddMethod`, whose
slices share no array, `get` is stored as `GET` after the methods already there
and the values are kept; `head` is refused with the upper-cased name. -/
theorem C11_add_method_witness :
    (Entry.AddMethod (fun c => c) goSlack
        (runMemCalls (fun c => c) goSlack NewState [.AddValue "admin", .AddMethod "get"])
        "get").1.view.Methods = ["GET", "GET"] ∧
      (Entry.AddMethod (fun c => c) goSlack
        (runMemCalls (fun c => c) goSlack NewState [.AddValue "admin", .AddMethod "get"])
        "get").1.view.Values = ["admin"] ∧
      (Entry.AddMethod (fun c => c) goSlack NewState "head").2 =
        some (.ErrUnsupportedMethod "HEAD") :=
  ⟨(C11_add_method (fun c => c) goSlack
      (runMemCalls (fun c => c) goSlack NewState [.AddValue "admin", .AddMethod "get"])
      "get").2.1 (by decide) |>.1,
    (C11_add_method (fun c => c) goSlack
      (runMemCalls (fun c => c) goSlack NewState [.AddValue "admin", .AddMethod "get"])
      "get").2.1 (by decide) |>.2.2.2.2.2 (by decide),
    (C11_add_method (fun c => c) goSlack NewState "head").2.2.2 (by decide) (by decide)⟩

theorem memSetValue_empty (st : MemState) (arr : Slice) (h : arr.len = 0) :
    Entry.SetValue st arr = (st, some .ErrEmptyValue) := by
  unfold Entry.SetValue
  rw [if_pos h]

theorem memSetValue_ne (st : MemState) (arr : Slice) (h : arr.len ≠ 0) :
    Entry.SetValue st arr = ({ st with entry := { st.entry with Values := arr } }, none) := by
  unfold Entry.SetValue
  rw [if_neg h]

/-- C13, as stated, fails: on the entry whose values were set to `e.Methods[:1]`
after two calls of `AddMethod`, `AddValue` appends in place, in the array of the
methods, and the methods change from `[GET, PUT]` to `[GET, x]`. -/
theorem C13_add_value_counterexample :
    (runMemCalls (fun c => c) goSlack NewState
        [.AddMethod "get", .AddMethod "put"]).entry.Methods.upTo 1 =
        { ptr := 1, len := 1, cap := 2 } ∧
      (runMemCalls (fun c => c) goSlack NewState
        [.AddMethod "get", .AddMethod "put",
          .SetValue { ptr := 1, len := 1, cap := 2 }]).view.Methods = ["GET", "PUT"] ∧
      (Entry.AddValue goSlack
        (runMemCalls (fun c => c) goSlack NewState
          [.AddMethod "get", .AddMethod "put",
            .SetValue { ptr := 1, len := 1, cap := 2 }]) "x").2 = none ∧
      (Entry.AddValue goSlack
        (runMemCalls (fun c => c) goSlack NewState
          [.AddMethod "get", .AddMethod "put",
            .SetValue { ptr := 1, len := 1, cap := 2 }]) "x").1.view.Methods =
        ["GET", "x"] := by
  decide

/-- C13, amended: `AddValue s` fails exactly when `s` is empty and otherwise
appends `s` to the end of the values; `SetValue arr` fails exactly when `arr`
has no element and otherwise makes the values the slice `arr`, with its
elements, in place of every value configured before.  Neither changes the
action, the claim or the path; `SetValue` does not change the methods, and
`AddValue` does not change them when the values and the methods share no
backing array. -/
theorem C13_add_value_set_value (slack : Nat → Nat → Nat) (st : MemState) (s : String)
    (arr : Slice) :
    ((Entry.AddValue slack st s).2 ≠ none ↔ s = "") ∧
      (s ≠ "" → (Entry.AddValue slack st s).1.view.Values = st.view.Values ++ [s]) ∧
      ((Entry.SetValue st arr).2 ≠ none ↔ arr.len = 0) ∧
      (arr.len ≠ 0 →
        (Entry.SetValue st arr).1.entry.Values = arr ∧
          (Entry.SetValue st arr).1.view.Values = arr.elems st.heap) ∧
      ((Entry.AddValue slack st s).1.view.Action = st.view.Action ∧
        (Entry.AddValue slack st s).1.view.Claim = st.view.Claim ∧
        (Entry.AddValue slack st s).1.view.Path = st.view.Path) ∧
      (Separate st → (Entry.AddValue slack st s).1.view.Methods = st.view.Methods) ∧
      ((Entry.SetValue st arr).1.view.Action = st.view.Action ∧
        (Entry.SetValue st arr).1.view.Claim = st.view.Claim ∧
        (Entry.SetValue st arr).1.view.Methods = st.view.Methods ∧
        (Entry.SetValue st arr).1.view.Path = st.view.Path) := by
  refine ⟨?_, memAddValue_values slack st s, ?_, ?_, memAddValue_strings slack st s,
    memAddValue_methods slack st s, ?_⟩
  · by_cases hs : s = ""
    · rw [hs, memAddValue_empty]
      simp
    · rw [memAddValue_ne slack st s hs]
      simp [hs]
  · by_cases ha : arr.len = 0
    · rw [memSetValue_empty st arr ha]
      simp [ha]
    · rw [memSetValue_ne st arr ha]
      simp [ha]
  · intro ha
    rw [memSetValue_ne st arr ha]
    exact ⟨rfl, rfl⟩
  · by_cases ha : arr.len = 0
    · rw [memSetValue_empty st arr ha]
      exact ⟨rfl, rfl, rfl, rfl⟩
    · rw [memSetValue_ne st arr ha]
      exact ⟨rfl, rfl, rfl, rfl⟩

/-- Instances of C13: on an entry built by `AddMethod` and `AddValue`, whose
slices share no array, `AddValue` appends after the value already there and
keeps the methods. -/
theorem C13_add_value_set_value_witness :
    (Entry.AddValue goSlack
        (runMemCalls (fun c => c) goSlack NewState [.AddMethod "get", .AddValue "admin"])
        "guest").1.view.Values = ["admin", "guest"] ∧
      (Entry.AddValue goSlack
        (runMemCalls (fun c => c) goSlack NewState [.AddMethod "get", .AddValue "admin"])
        "guest").1.view.Methods = ["GET"] :=
  ⟨(C13_add_value_set_value goSlack
      (runMemCalls (fun c => c) goSlack NewState [.AddMethod "get", .AddValue "admin"])
      "guest" Slice.empty).2.1 (by decide),
    (C13_add_value_set_value goSlack
      (runMemCalls (fun c => c) goSlack NewState [.AddMethod "get", .AddValue "admin"])
      "guest" Slice.empty).2.2.2.2.2.1 (by decide)⟩

/-! ## The invariant of rules built through the mutators, in memory -/

/-- A call in memory, on an entry whose slices share no array and with a slice
for `SetValue` that shares none with the methods, does to the contents of the
fields what the call on the contents does, and leaves the slices sharing no
array. -/
theorem MemCall_run_contents (caseTable : Char → Char) (slack : Nat → Nat → Nat)
    (st : MemState) (c : MemCall) (hsep : Separate st)
    (hc : ∀ arr, c = .SetValue arr →
      arr.len = 0 ∨ (arr.Allocated st.heap ∧ arr.Apart st.entry.Methods)) :
    (c.run caseTable slack st).1.view = ((c.contents st.heap).run caseTable st.view).1 ∧
      Separate (c.run caseTable slack st).1 := by
  cases c with
  | Allow => exact ⟨rfl, hsep⟩
  | Deny => exact ⟨rfl, hsep⟩
  | SetAction s =>
    simp only [MemCall.run, MemCall.contents, Call.run, Entry.SetAction,
      AccessListEntry.SetAction]
    split_ifs <;> exact ⟨rfl, hsep⟩
  | SetClaim s =>
    simp only [MemCall.run, MemCall.contents, Call.run, Entry.SetClaim,
      AccessListEntry.SetClaim]
    split_ifs <;> exact ⟨rfl, hsep⟩
  | SetPath s =>
    simp only [MemCall.run, MemCall.contents, Call.run, Entry.SetPath,
      AccessListEntry.SetPath]
    split_ifs <;> exact ⟨rfl, hsep⟩
  | AddMethod s =>
    simp only [MemCall.run, MemCall.contents, Call.run]
    refine ⟨?_, memAddMethod_separate caseTable slack st s hsep⟩
    have hv := memAddMethod_values caseTable slack st s hsep
    by_cases hs : s = ""
    · rw [hs, memAddMethod_empty, AddMethod_empty]
    · by_cases hm : ToUpper caseTable s ∈ httpMethods
      · rw [memAddMethod_mem caseTable slack st s hm] at hv ⊢
        rw [AddMethod_of_mem caseTable st.view s hm]
        have hM := goAppend_elems slack st.heap st.entry.Methods (ToUpper caseTable s)
        simp only [MemState.view] at hv hM ⊢
        rw [hv, hM]
      · rw [memAddMethod_not_mem caseTable slack st s hs hm,
          AddMethod_of_not_mem caseTable st.view s hs hm]
  | AddValue s =>
    simp only [MemCall.run, MemCall.contents, Call.run]
    refine ⟨?_, memAddValue_separate slack st s hsep⟩
    have hm := memAddValue_methods slack st s hsep
    by_cases hs : s = ""
    · rw [hs, memAddValue_empty]
      rfl
    · have hv := memAddValue_values slack st s hs
      rw [memAddValue_ne slack st s hs] at hv hm ⊢
      rw [AddValue_of_ne st.view s hs]
      simp only [MemState.view] at hv hm ⊢
      rw [hv, hm]
  | SetValue arr =>
    simp only [MemCall.run, MemCall.contents, Call.run]
    by_cases ha : arr.len = 0
    · rw [memSetValue_empty st arr ha]
      refine ⟨?_, hsep⟩
      simp [AccessListEntry.SetValue, Slice.elems_length, ha]
    · rw [memSetValue_ne st arr ha]
      rcases hc arr rfl with h0 | ⟨h1, h2⟩
      · exact absurd h0 ha
      · refine ⟨?_, h1, hsep.2.1, h2⟩
        simp [AccessListEntry.SetValue, Slice.elems_length, ha, MemState.view]

theorem Separate_new (h0 : Heap) : Separate { heap := h0, entry := NewEntry } := by
  simp [Separate, NewEntry, Slice.empty, Slice.Allocated, Slice.Apart]

theorem RuleInv_newEntry (h0 : Heap) :
    RuleInv (MemState.view { heap := h0, entry := NewEntry }) := RuleInv_new

/-- The invariant of the contents and the separation of the slices hold along a
sequence of calls whose `SetValue` slices share no array with the methods. -/
theorem RuleInv_runMemCalls (caseTable : Char → Char) (slack : Nat → Nat → Nat)
    (st : MemState) (calls : List MemCall) (hsep : Separate st) (hinv : RuleInv st.view)
    (hok : SetValueApart caseTable slack st calls) :
    Separate (runMemCalls caseTable slack st calls) ∧
      RuleInv (runMemCalls caseTable slack st calls).view := by
  induction calls generalizing st with
  | nil => exact ⟨hsep, hinv⟩
  | cons c rest ih =>
    obtain ⟨hc, hrest⟩ := hok
    have hstep := MemCall_run_contents caseTable slack st c hsep (by
      intro arr harr
      subst harr
      exact hc)
    refine ih _ hstep.2 ?_ hrest
    rw [hstep.1]
    exact RuleInv_run caseTable st.view _ hinv

/-- C14, as stated, fails: after `AddMethod get`, `AddMethod put`, `SetValue` on
the slice `e.Methods[:1]` and `AddValue x`, the methods are `[GET, x]`: the
append of the value has overwritten the second method, and `x` is none of the
five method names. -/
theorem C14_rule_invariant_counterexample :
    (runMemCalls (fun c => c) goSlack NewState
        [.AddMethod "get", .AddMethod "put"]).entry.Methods.upTo 1 =
        { ptr := 1, len := 1, cap := 2 } ∧
      (runMemCalls (fun c => c) goSlack NewState
        [.AddMethod "get", .AddMethod "put", .SetValue { ptr := 1, len := 1, cap := 2 },
          .AddValue "x"]).view.Methods = ["GET", "x"] ∧
      ¬ ∀ m ∈ (runMemCalls (fun c => c) goSlack NewState
          [.AddMethod "get", .AddMethod "put", .SetValue { ptr := 1, len := 1, cap := 2 },
            .AddValue "x"]).view.Methods,
        m = "GET" ∨ m = "POST" ∨ m = "PUT" ∨ m = "PATCH" ∨ m = "DELETE" := by
  decide

/-- C14, amended: a rule obtained from a new entry by any sequence of calls to
`Allow`, `Deny`, `SetAction`, `SetClaim`, `AddMethod`, `SetPath`, `AddValue` and
`SetValue`, succeeding or failing, with any string arguments and with slices
for `SetValue` that share no backing array with the methods of the rule, has
only methods among `GET`, `POST`, `PUT`, `PATCH`, `DELETE`, a claim that is
unset or `roles`, and an action that is unset, `allow` or `deny`; if moreover
`Validate` returns nil, the action is `allow` or `deny`, the claim is `roles`
and there is at least one value.  The memory `h0` in which the entry is made
holds the arrays of the caller. -/
theorem C14_rule_invariant (caseTable : Char → Char) (slack : Nat → Nat → Nat) (h0 : Heap)
    (calls : List MemCall)
    (hok : SetValueApart caseTable slack { heap := h0, entry := NewEntry } calls) :
    (∀ m ∈ (runMemCalls caseTable slack { heap := h0, entry := NewEntry } calls).view.Methods,
        m = "GET" ∨ m = "POST" ∨ m = "PUT" ∨ m = "PATCH" ∨ m = "DELETE") ∧
      ((runMemCalls caseTable slack { heap := h0, entry := NewEntry } calls).view.Claim = "" ∨
        (runMemCalls caseTable slack { heap := h0, entry := NewEntry } calls).view.Claim =
          "roles") ∧
      ((runMemCalls caseTable slack { heap := h0, entry := NewEntry } calls).view.Action = "" ∨
        (runMemCalls caseTable slack { heap := h0, entry := NewEntry } calls).view.Action =
          "allow" ∨
        (runMemCalls caseTable slack { heap := h0, entry := NewEntry } calls).view.Action =
          "deny") ∧
      ((runMemCalls caseTable slack { heap := h0, entry := NewEntry } calls).view.Validate =
          none →
        ((runMemCalls caseTable slack { heap := h0, entry := NewEntry } calls).view.Action =
            "allow" ∨
          (runMemCalls caseTable slack { heap := h0, entry := NewEntry } calls).view.Action =
            "deny") ∧
        (runMemCalls caseTable slack { heap := h0, entry := NewEntry } calls).view.Claim =
          "roles" ∧
        (runMemCalls caseTable slack { heap := h0, entry := NewEntry } calls).view.Values ≠
          []) := by
  obtain ⟨_, hm, hc, ha⟩ := RuleInv_runMemCalls caseTable slack
    { heap := h0, entry := NewEntry } calls (Separate_new h0) (RuleInv_newEntry h0) hok
  refine ⟨fun m hmem => (mem_httpMethods m).1 (hm m hmem), hc, ha, ?_⟩
  intro hv
  obtain ⟨h1, h2, h3⟩ := Validate_none _ hv
  refine ⟨h1, ?_, h3⟩
  rcases hc with hc | hc
  · exact absurd hc h2
  · exact hc

/-- An instance of C14: a sequence with refused calls in it, and a `SetValue` on
a slice of the caller that lies apart from the methods and has spare capacity,
ends in a rule that `Validate` accepts, with the methods `[PUT]`. -/
theorem C14_rule_invariant_witness :
    (runMemCalls (fun c => c) goSlack
        { heap := { cell := fun a => if a = 0 then "admin" else "", next := 2 },
          entry := NewEntry }
        [.SetAction "permit", .Deny, .SetClaim "groups", .SetClaim "roles",
          .AddMethod "head", .AddMethod "put", .SetValue { ptr := 0, len := 1, cap := 2 },
          .AddValue "guest"]).view =
        { Action := "deny", Values := ["admin", "guest"], Claim := "roles",
          Methods := ["PUT"], Path := "" } ∧
      ∀ m ∈ (runMemCalls (fun c => c) goSlack
          { heap := { cell := fun a => if a = 0 then "admin" else "", next := 2 },
            entry := NewEntry }
          [.SetAction "permit", .Deny, .SetClaim "groups", .SetClaim "roles",
            .AddMethod "head", .AddMethod "put", .SetValue { ptr := 0, len := 1, cap := 2 },
            .AddValue "guest"]).view.Methods,
        m = "GET" ∨ m = "POST" ∨ m = "PUT" ∨ m = "PATCH" ∨ m = "DELETE" :=
  ⟨by decide,
    (C14_rule_invariant (fun c => c) goSlack
      { cell := fun a => if a = 0 then "admin" else "", next := 2 }
      [.SetAction "permit", .Deny, .SetClaim "groups", .SetClaim "roles",
        .AddMethod "head", .AddMethod "put", .SetValue { ptr := 0, len := 1, cap := 2 },
        .AddValue "guest"]
      (by
        simp only [SetValueApart, true_and, and_true]
        decide)).1⟩

/-! ## Monotonicity of matching, in memory -/

/-- C20, as stated, fails: on the entry built by `Allow`, `SetClaim roles`,
`AddMethod get`, `AddMethod put` and `SetValue` on the slice `e.Methods[:1]`,
the role `GET` is permitted on the request method `PUT`; `AddValue x` then
appends in place, in the array of the methods, which become `[GET, x]`, and the
same request gets Abstain. -/
theorem C20_matching_monotone_counterexample :
    (runMemCalls (fun c => c) goSlack NewState
        [.Allow, .SetClaim "roles", .AddMethod "get", .AddMethod "put"]).entry.Methods.upTo 1 =
        { ptr := 1, len := 1, cap := 2 } ∧
      AccessListEntry.IsClaimAllowed
        (runMemCalls (fun c => c) goSlack NewState
          [.Allow, .SetClaim "roles", .AddMethod "get", .AddMethod "put",
            .SetValue { ptr := 1, len := 1, cap := 2 }]).view
        ⟨["GET"]⟩ (some ⟨true, some [("method", .str "PUT")]⟩) = some Verdict.Permit ∧
      AccessListEntry.IsClaimAllowed
        (Entry.AddValue goSlack
          (runMemCalls (fun c => c) goSlack NewState
            [.Allow, .SetClaim "roles", .AddMethod "get", .AddMethod "put",
              .SetValue { ptr := 1, len := 1, cap := 2 }]) "x").1.view
        ⟨["GET"]⟩ (some ⟨true, some [("method", .str "PUT")]⟩) = some Verdict.Abstain := by
  decide

/-- C20, amended: when `IsClaimAllowed` returns Permit or Deny on a rule whose
values and methods share no backing array, it returns the same verdict after
`AddValue v` on the rule, for a non-empty `v`; and on any rule, left as it is,
it returns the same verdict for the claims whose roles are the old roles
followed by one more role.  Adding a value or a role can turn Abstain into
Permit, never Permit or Deny into Abstain. -/
theorem C20_matching_monotone (slack : Nat → Nat → Nat) (st : MemState)
    (claims : UserClaims) (opts : Option TokenValidatorOptions) (v role : String)
    (verdict : Verdict) (h : st.view.IsClaimAllowed claims opts = some verdict)
    (hna : verdict ≠ Verdict.Abstain) :
    (Separate st → v ≠ "" →
        (Entry.AddValue slack st v).1.view.IsClaimAllowed claims opts = some verdict) ∧
      st.view.IsClaimAllowed ⟨claims.Roles ++ [role]⟩ opts = some verdict ∧
      (AccessListEntry.IsClaimAllowed
          (runMemCalls (fun c => c) goSlack NewState
            [.Allow, .SetClaim "roles", .AddValue "guest"]).view ⟨["admin"]⟩ none =
          some Verdict.Abstain ∧
        AccessListEntry.IsClaimAllowed
          (Entry.AddValue goSlack
            (runMemCalls (fun c => c) goSlack NewState
              [.Allow, .SetClaim "roles", .AddValue "guest"]) "admin").1.view
          ⟨["admin"]⟩ none = some Verdict.Permit ∧
        AccessListEntry.IsClaimAllowed
          (runMemCalls (fun c => c) goSlack NewState
            [.Allow, .SetClaim "roles", .AddValue "guest"]).view
          ⟨["admin"] ++ ["guest"]⟩ none = some Verdict.Permit) := by
  have hkey : claimMatch st.view claims ∧
      AccessListEntry.matchMethodPath st.view opts = some (true, true) ∧
      verdict = (if st.view.Action = "allow" then Verdict.Permit else Verdict.Deny) := by
    rcases AccessListEntry.IsClaimAllowed_cases st.view claims opts with
      ⟨h1, _⟩ | ⟨h1, _⟩ | ⟨h1, ha, hc, hmp⟩ | ⟨h1, ha, hc, hmp⟩
    · rw [h1] at h
      exact absurd h (by simp)
    · rw [h1, Option.some.injEq] at h
      exact absurd h.symm hna
    · rw [h1, Option.some.injEq] at h
      exact ⟨hc, hmp, by rw [if_pos ha, h]⟩
    · rw [h1, Option.some.injEq] at h
      exact ⟨hc, hmp, by rw [if_neg ha, h]⟩
  obtain ⟨hc, hmp, hverdict⟩ := hkey
  refine ⟨?_, ?_, by decide, by decide, by decide⟩
  · intro hsep hv
    have hview : (Entry.AddValue slack st v).1.view =
        { st.view with Values := st.view.Values ++ [v] } := by
      have h1 := memAddValue_values slack st v hv
      have h2 := memAddValue_methods slack st v hsep
      obtain ⟨h3, h4, h5⟩ := memAddValue_strings slack st v
      cases hw : (Entry.AddValue slack st v).1.view with
      | mk a vs c ms p =>
        rw [hw] at h1 h2 h3 h4 h5
        simp only at h1 h2 h3 h4 h5
        rw [h1, h2, h3, h4, h5]
    rw [hview, hverdict]
    exact AccessListEntry.IsClaimAllowed_of_claimMatch _ claims opts
      (claimMatch_add_value st.view claims v hc) hmp
  · rw [hverdict]
    exact AccessListEntry.IsClaimAllowed_of_claimMatch st.view _ opts
      (claimMatch_add_role st.view claims role hc) hmp

/-- An instance of C20: a deny rule built by the mutators, whose slices share
no array, still denies the role `admin` after the value `guest` is added and
after the role `editor` is appended. -/
theorem C20_matching_monotone_witness :
    AccessListEntry.IsClaimAllowed
        (Entry.AddValue goSlack
          (runMemCalls (fun c => c) goSlack NewState
            [.Deny, .SetClaim "roles", .AddMethod "get", .AddValue "admin"])
          "guest").1.view ⟨["admin"]⟩ none = some Verdict.Deny ∧
      AccessListEntry.IsClaimAllowed
        (runMemCalls (fun c => c) goSlack NewState
          [.Deny, .SetClaim "roles", .AddMethod "get", .AddValue "admin"]).view
        ⟨["admin"] ++ ["editor"]⟩ none = some Verdict.Deny :=
  ⟨(C20_matching_monotone goSlack
      (runMemCalls (fun c => c) goSlack NewState
        [.Deny, .SetClaim "roles", .AddMethod "get", .AddValue "admin"])
      ⟨["admin"]⟩ none "guest" "editor" Verdict.Deny (by decide) (by decide)).1
      (by decide) (by decide),
    (C20_matching_monotone goSlack
      (runMemCalls (fun c => c) goSlack NewState
        [.Deny, .SetClaim "roles", .AddMethod "get", .AddValue "admin"])
      ⟨["admin"]⟩ none "guest" "editor" Verdict.Deny (by decide) (by decide)).2.1⟩

/-- A call in memory that returns an error has written nothing: the memory and
the entry are what they were. -/
theorem MemCall_run_error (caseTable : Char → Char) (slack : Nat → Nat → Nat)
    (st : MemState) (c : MemCall) (h : (c.run caseTable slack st).2 ≠ none) :
    (c.run caseTable slack st).1 = st := by
  cases c with
  | Allow => exact absurd rfl h
  | Deny => exact absurd rfl h
  | SetAction s =>
    simp only [MemCall.run, Entry.SetAction] at h ⊢
    split_ifs at h ⊢ <;> first | rfl | exact absurd rfl h
  | SetClaim s =>
    simp only [MemCall.run, Entry.SetClaim] at h ⊢
    split_ifs at h ⊢ <;> first | rfl | exact absurd rfl h
  | SetPath s =>
    simp only [MemCall.run, Entry.SetPath] at h ⊢
    split_ifs at h ⊢ <;> first | rfl | exact absurd rfl h
  | AddMethod s =>
    simp only [MemCall.run] at h ⊢
    by_cases hs : s = ""
    · rw [hs, memAddMethod_empty]
    · by_cases hm : ToUpper caseTable s ∈ httpMethods
      · rw [memAddMethod_mem caseTable slack st s hm] at h
        exact absurd rfl h
      · rw [memAddMethod_not_mem caseTable slack st s hs hm]
  | AddValue s =>
    simp only [MemCall.run] at h ⊢
    by_cases hs : s = ""
    · rw [hs, memAddValue_empty]
    · rw [memAddValue_ne slack st s hs] at h
      exact absurd rfl h
  | SetValue arr =>
    simp only [MemCall.run] at h ⊢
    by_cases ha : arr.len = 0
    · rw [memSetValue_empty st arr ha]
    · rw [memSetValue_ne st arr ha] at h
      exact absurd rfl h

/-- The mutators on the contents of the fields describe the mutators in memory:
along a sequence of calls on an entry whose slices share no array, and with
slices for `SetValue` that share none with the methods, the contents of the
fields are those that the calls on the contents give. -/
theorem runMemCalls_contents (caseTable : Char → Char) (slack : Nat → Nat → Nat)
    (st : MemState) (calls : List MemCall) (hsep : Separate st)
    (hok : SetValueApart caseTable slack st calls) :
    (runMemCalls caseTable slack st calls).view =
      runCalls caseTable st.view (callContents caseTable slack st calls) := by
  induction calls generalizing st with
  | nil => rfl
  | cons c rest ih =>
    obtain ⟨hc, hrest⟩ := hok
    have hstep := MemCall_run_contents caseTable slack st c hsep (by
      intro arr harr
      subst harr
      exact hc)
    simp only [runMemCalls, callContents, runCalls]
    rw [ih _ hstep.2 hrest, hstep.1]

/-- Adding non-empty values one by one to an entry in memory whose slices share
no array gives the contents that `addValues` gives. -/
theorem runMemCalls_addValues (caseTable : Char → Char) (slack : Nat → Nat → Nat)
    (st : MemState) (vs : List String) (hsep : Separate st) (hvs : ∀ v ∈ vs, v ≠ "") :
    (runMemCalls caseTable slack st (vs.map MemCall.AddValue)).view =
      (addValues st.view vs).1 := by
  induction vs generalizing st with
  | nil => rfl
  | cons v rest ih =>
    have hv : v ≠ "" := hvs v (List.mem_cons_self _ _)
    have hrest : ∀ w ∈ rest, w ≠ "" := fun w hw => hvs w (List.mem_cons_of_mem _ hw)
    have hstep := MemCall_run_contents caseTable slack st (.AddValue v) hsep (by
      intro arr harr
      exact absurd harr (by simp))
    simp only [List.map_cons, runMemCalls]
    rw [ih _ hstep.2 hrest, hstep.1]
    simp only [MemCall.contents, Call.run, addValues, AddValue_of_ne st.view v hv]

/-- The rule of the authorizer test built in memory, in any memory in which the
new entry is made, has the contents that `buildAllowEntry` gives. -/
theorem runMemCalls_buildAllowEntry (caseTable : Char → Char) (slack : Nat → Nat → Nat)
    (h0 : Heap) (vs : List String) (hvs : ∀ v ∈ vs, v ≠ "") :
    (runMemCalls caseTable slack { heap := h0, entry := NewEntry }
        (.Allow :: .SetClaim "roles" :: vs.map MemCall.AddValue)).view =
      (buildAllowEntry vs).1 := by
  have hsep : Separate
      (MemCall.run caseTable slack
        (MemCall.run caseTable slack { heap := h0, entry := NewEntry } .Allow).1
        (.SetClaim "roles")).1 := by
    simp [MemCall.run, Entry.Allow, Entry.SetClaim, Separate, NewEntry, Slice.empty,
      Slice.Allocated, Slice.Apart]
  simp only [runMemCalls]
  rw [runMemCalls_addValues caseTable slack _ vs hsep hvs, buildAllowEntry_eq vs hvs,
    addValues_eq _ vs hvs]
  simp [MemCall.run, Entry.Allow, Entry.SetClaim, MemState.view, NewEntry, Slice.empty,
    Slice.elems]

/-- The round trip of the values made in memory, on a new entry given the action
and the claim of the rule, has the contents that `roundTripValues` gives. -/
theorem runMemCalls_roundTripValues (caseTable : Char → Char) (slack : Nat → Nat → Nat)
    (h0 : Heap) (acl : AccessListEntry)
    (hvs : ∀ v ∈ SplitOnSpace acl.GetValues, v ≠ "") :
    (runMemCalls caseTable slack
        { heap := h0, entry := { NewEntry with Action := acl.Action, Claim := acl.Claim } }
        ((SplitOnSpace acl.GetValues).map MemCall.AddValue)).view =
      (roundTripValues acl).1 := by
  have hsep : Separate
      { heap := h0, entry := { NewEntry with Action := acl.Action, Claim := acl.Claim } } := by
    simp [Separate, NewEntry, Slice.empty, Slice.Allocated, Slice.Apart]
  rw [runMemCalls_addValues caseTable slack _ _ hsep hvs]
  rfl

end ACL
